import Mathlib

/-!
Verification of the pdf-to-llm text pipeline (src/pdf-to-llm.py).

The Python source is shallowly embedded over `List Char` / `String`:
regex substitutions are implemented character-by-character, structurally
recursive so that every definition evaluates inside the kernel.
All character classes follow the ASCII fragment of Python's regex classes
(`\s`, `\w`), which is the fragment the claims exercise.
-/

namespace PdfToLlm

/-- Python regex `\s` (ASCII fragment): space, tab, newline, carriage
return, vertical tab, form feed. -/
def pyWs (c : Char) : Bool :=
  c == ' ' || c == '\t' || c == '\n' || c == '\r' || c == '\x0b' || c == '\x0c'

/-- Python regex `\w` (ASCII fragment): alphanumeric or underscore. -/
def pyWordChar (c : Char) : Bool :=
  c.isAlphanum || c == '_'

/-- The punctuation kept by `clean_text`'s character filter:
`. , ! ? ; : ( ) -`. -/
def punctKeep (c : Char) : Bool :=
  c == '.' || c == ',' || c == '!' || c == '?' || c == ';' || c == ':' ||
  c == '(' || c == ')' || c == '-'

/-- The six punctuation characters of the spacing-fix regex
`\s+([.,!?;:])`. -/
def punct6 (c : Char) : Bool :=
  c == '.' || c == ',' || c == '!' || c == '?' || c == ';' || c == ':'

/-- A character survives `re.sub(r'[^\w\s.,!?;:()-]', '', text)` iff it is
a word character, whitespace, or kept punctuation. -/
def isKeep (c : Char) : Bool :=
  pyWordChar c || pyWs c || punctKeep c

/-- `re.sub(r'\s+', ' ', text)`: every maximal whitespace run becomes one
space.  The boolean argument records whether we are inside a run. -/
def collapseGo : Bool → List Char → List Char
  | _, [] => []
  | inRun, c :: rest =>
    if pyWs c then
      (if inRun then [] else [' ']) ++ collapseGo true rest
    else
      c :: collapseGo false rest

def collapseWs (l : List Char) : List Char := collapseGo false l

/-- `re.sub(r'\s+([.,!?;:])', r'\1', text)`: a whitespace run immediately
followed by one of `.,!?;:` is deleted (the punctuation stays).  `pending`
holds the whitespace run read so far but not yet emitted. -/
def fixGo : List Char → List Char → List Char
  | pending, [] => pending
  | pending, c :: rest =>
    if pyWs c then fixGo (pending ++ [c]) rest
    else if punct6 c && !pending.isEmpty then c :: fixGo [] rest
    else pending ++ c :: fixGo [] rest

def fixPunct (l : List Char) : List Char := fixGo [] l

/-- Python `str.strip()` (whitespace from both ends). -/
def stripWsEnds (l : List Char) : List Char :=
  ((l.dropWhile pyWs).reverse.dropWhile pyWs).reverse

/-- Python `str.split()` with no argument: split on whitespace runs,
dropping empty pieces.  `acc` is the word currently being read. -/
def splitWsGo : List Char → List Char → List (List Char)
  | acc, [] => if acc.isEmpty then [] else [acc]
  | acc, c :: rest =>
    if pyWs c then
      (if acc.isEmpty then [] else [acc]) ++ splitWsGo [] rest
    else
      splitWsGo (acc ++ [c]) rest

def splitWs (l : List Char) : List (List Char) := splitWsGo [] l

/-- Python `str.split('\n')`: split on every newline, keeping empty
pieces (`"".split('\n') == ['']`). -/
def splitNlGo : List Char → List Char → List (List Char)
  | acc, [] => [acc]
  | acc, c :: rest =>
    if c == '\n' then acc :: splitNlGo [] rest else splitNlGo (acc ++ [c]) rest

def splitOnNl (l : List Char) : List (List Char) := splitNlGo [] l

/-- `sep.join(pieces)`. -/
def joinSep (sep : List Char) : List (List Char) → List Char
  | [] => []
  | [l] => l
  | l :: l' :: ls => l ++ sep ++ joinSep sep (l' :: ls)

/-- The greedy word-packing loop of `wrap_text`: `cur` is
`current_line` (a list of words), `clen` is `current_length` (each word
counted as its length plus one for a space). -/
def wrapWordsGo (width : Nat) : List (List Char) → List (List Char) → Nat →
    List (List (List Char))
  | [], cur, _ => if cur.isEmpty then [] else [cur]
  | w :: ws, cur, clen =>
    let wl := w.length + 1
    if width < clen + wl then
      cur :: wrapWordsGo width ws [w] wl
    else
      wrapWordsGo width ws (cur ++ [w]) (clen + wl)

/-- Word-lists of the output lines produced by the greedy loop. -/
def wrapWords (width : Nat) (ws : List (List Char)) : List (List (List Char)) :=
  wrapWordsGo width ws [] 0

/-- The literal page-marker prefix checked by `wrap_text`. -/
def pageMarkChars : List Char := ['[', 'P', 'a', 'g', 'e']

/-- One iteration of `wrap_text`'s paragraph loop: the list of output
line strings contributed by one paragraph. -/
def wrapParaLines (width : Nat) (p : List Char) : List (List Char) :=
  if (stripWsEnds p).isEmpty then [[]]
  else if pageMarkChars.isPrefixOf (stripWsEnds p) then [p]
  else (wrapWords width (splitWs p)).map (joinSep [' '])

/-- `wrap_text(text, width)` on character lists. -/
def wrapTextL (width : Nat) (l : List Char) : List Char :=
  joinSep ['\n'] (((splitOnNl l).map (wrapParaLines width)).flatten)

/-- `wrap_text` with its source default width 80. -/
def wrap_text (text : String) (width : Nat) : String :=
  ⟨wrapTextL width text.data⟩

/-- The pre-wrapping stages of `clean_text`: collapse whitespace, filter
characters, tighten punctuation spacing, strip. -/
def normCore (l : List Char) : List Char :=
  stripWsEnds (fixPunct ((collapseWs l).filter isKeep))

/-- `clean_text(text)` on character lists: collapse whitespace, filter
characters, tighten punctuation spacing, strip, wrap at 80. -/
def cleanTextL (l : List Char) : List Char :=
  wrapTextL 80 (normCore l)

def clean_text (text : String) : String := ⟨cleanTextL text.data⟩

end PdfToLlm

namespace PdfToLlm

/-! ### Page numbering (`PageNumbering` class and `_to_roman`) -/

/-- The subtractive-notation symbol table of `_to_roman`, uppercase as in
the source. -/
def romanSymbols : List (List Char × Nat) :=
  [(['M'], 1000), (['C', 'M'], 900), (['D'], 500), (['C', 'D'], 400),
   (['C'], 100), (['X', 'C'], 90), (['L'], 50), (['X', 'L'], 40),
   (['X'], 10), (['I', 'X'], 9), (['V'], 5), (['I', 'V'], 4), (['I'], 1)]

/-- The `while num >= value` loop of `_to_roman` for one symbol: appends
the symbol as long as `val ≤ n`, returning the emitted text and the
remaining value.  The fuel argument only bounds the recursion; calling
with fuel `n` is enough since every table value is at least 1. -/
def romanWhile (sym : List Char) (val : Nat) : Nat → Nat → List Char × Nat
  | 0, n => ([], n)
  | fuel + 1, n =>
    if val ≤ n then
      let r := romanWhile sym val fuel (n - val)
      (sym ++ r.1, r.2)
    else ([], n)

def romanGo : Nat → List (List Char × Nat) → List Char
  | _, [] => []
  | n, (sym, val) :: rest =>
    let r := romanWhile sym val n n
    r.1 ++ romanGo r.2 rest

/-- `PageNumbering._to_roman(num)`: greedy conversion, then `.lower()`. -/
def to_roman (num : Nat) : String :=
  ⟨(romanGo num romanSymbols).map Char.toLower⟩

/-- Python `str(n)` for a natural number (decimal rendering).  Fuel-based
so the definition is structurally recursive; fuel `n + 1` always
suffices. -/
def pyStrGo : Nat → Nat → List Char
  | 0, _ => []
  | fuel + 1, n =>
    if n < 10 then [Char.ofNat (48 + n)]
    else pyStrGo fuel (n / 10) ++ [Char.ofNat (48 + n % 10)]

def pyStr (n : Nat) : String := ⟨pyStrGo (n + 1) n⟩

/-- The `PageNumbering` class: `__init__` stores `start_page`, `is_roman`
and sets `_current = start_page`. -/
structure PageNumbering where
  start_page : Nat
  is_roman : Bool
  current : Nat

def PageNumbering.init (start_page : Nat) (is_roman : Bool) :
    PageNumbering :=
  ⟨start_page, is_roman, start_page⟩

/-- `get_page_string(offset)`: reads `_current + offset` and renders it.
The method mutates nothing, so the embedding returns the object state
alongside the string, letting statelessness be stated as a theorem. -/
def PageNumbering.get_page_string (pn : PageNumbering) (offset : Nat) :
    String × PageNumbering :=
  (if pn.is_roman then to_roman (pn.current + offset)
   else pyStr (pn.current + offset), pn)

/-- Specification-side reference roman numerals: positional digit tables
(lowercase, standard subtractive notation), defined independently of the
greedy loop. -/
def romanRefUnits : List String :=
  ["", "i", "ii", "iii", "iv", "v", "vi", "vii", "viii", "ix"]

def romanRefTens : List String :=
  ["", "x", "xx", "xxx", "xl", "l", "lx", "lxx", "lxxx", "xc"]

def romanRefHundreds : List String :=
  ["", "c", "cc", "ccc", "cd", "d", "dc", "dcc", "dccc", "cm"]

def romanRefThousands : List String :=
  ["", "m", "mm", "mmm"]

/-- Reference rendering for `1 ≤ n ≤ 3999`, by decimal digits. -/
def romanRef (n : Nat) : String :=
  (romanRefThousands.getD (n / 1000) "") ++
  (romanRefHundreds.getD (n % 1000 / 100) "") ++
  (romanRefTens.getD (n % 100 / 10) "") ++
  (romanRefUnits.getD (n % 10) "")

/-! ### Configuration generation (`generate_thesis_config`) -/

/-- Decimal digit run to a number. -/
def digitsVal (l : List Char) : Nat :=
  l.foldl (fun a c => a * 10 + (c.toNat - 48)) 0

/-- Python `int(s)` on a string cell: optional surrounding whitespace,
optional sign, then a nonempty ASCII digit run; anything else raises
`ValueError`. -/
def pyIntParse (s : String) : Option Int :=
  match stripWsEnds s.data with
  | [] => none
  | c :: rest =>
    let digs := if c == '+' || c == '-' then rest else c :: rest
    if !digs.isEmpty && digs.all Char.isDigit then
      some (if c == '-' then -(digitsVal digs : Int) else (digitsVal digs : Int))
    else none

/-- The message of the `ValueError` raised by a failing bare `int(s)`
call. -/
def intErrMsg (s : String) : String :=
  "invalid literal for int() with base 10: " ++ "'" ++ s ++ "'"

/-- One row of the external tabular data source: `present f` models
`pd.notna(row[f]) and row[f]` for the `...Present` field `f`, and `val f`
is the raw cell content handed to `int`, as a string. -/
structure Row where
  present : String → Bool
  val : String → String

/-- One entry of the generated configuration dictionary. -/
structure SectionBounds where
  start_page : Int
  end_page : Int
  roman : Bool
deriving DecidableEq, Repr

/-- The custom `ValueError` message raised for a chapter with unparseable
page numbers (the interpolated `Present` value is rendered as `True`,
which is what a truthy boolean cell prints as). -/
def chapterErrMsg (i : Nat) (fp lp : String) : String :=
  "Invalid page numbers for Chapter " ++ pyStr i ++ " (Present=True). " ++
  "Expected integers for start page (" ++ fp ++ ") " ++
  "and end page (" ++ lp ++ ")"

/-- The chapter loop of `generate_thesis_config`, over the given chapter
indices: a present chapter with unparseable first/last page raises the
custom chapter error; a present chapter with integer pages yields an
arabic entry. -/
def chaptersGo (row : Row) : List Nat → Except String (List (String × SectionBounds))
  | [] => .ok []
  | i :: rest =>
    let pfx := "Ch" ++ pyStr i
    if row.present (pfx ++ "Present") then
      match pyIntParse (row.val (pfx ++ "FP")), pyIntParse (row.val (pfx ++ "LP")) with
      | some fp, some lp =>
        (chaptersGo row rest).map
          (fun tl => ("chapter_" ++ pyStr i, ⟨fp, lp, false⟩) :: tl)
      | _, _ =>
        .error (chapterErrMsg i (row.val (pfx ++ "FP")) (row.val (pfx ++ "LP")))
    else chaptersGo row rest

/-- `section_mappings`, in the source's insertion order. -/
def sectionMappings : List (String × String) :=
  [("abstract", "Abstract"), ("acknowledgments", "Acknowledgments"),
   ("toc", "ToC"), ("prologue", "Prologue"), ("epilogue", "Epilogue"),
   ("references", "Ref"), ("appendix", "App"), ("index", "Index")]

/-- Front-matter sections use roman numerals. -/
def isFrontMatter (key : String) : Bool :=
  key == "abstract" || key == "acknowledgments" || key == "toc"

/-- The named-sections loop of `generate_thesis_config`: the bare `int`
calls are not wrapped in `try`, so a parse failure raises Python's own
`ValueError`, whose message carries only the raw value. -/
def sectionsGo (row : Row) : List (String × String) →
    Except String (List (String × SectionBounds))
  | [] => .ok []
  | (key, pfx) :: rest =>
    if row.present (pfx ++ "Present") then
      match pyIntParse (row.val (pfx ++ "FP")) with
      | none => .error (intErrMsg (row.val (pfx ++ "FP")))
      | some fp =>
        match pyIntParse (row.val (pfx ++ "LP")) with
        | none => .error (intErrMsg (row.val (pfx ++ "LP")))
        | some lp =>
          (sectionsGo row rest).map
            (fun tl => (key, ⟨fp, lp, isFrontMatter key⟩) :: tl)
    else sectionsGo row rest

/-- `generate_thesis_config(data, index)`: chapters 1..12, then the named
sections, either as an ordered configuration list or as the first raised
`ValueError` message. -/
def generate_thesis_config (row : Row) : Except String (List (String × SectionBounds)) :=
  match chaptersGo row ((List.range 12).map (· + 1)) with
  | .error e => .error e
  | .ok chs =>
    match sectionsGo row sectionMappings with
    | .error e => .error e
    | .ok secs => .ok (chs ++ secs)

/-! ### PDF splitting (`split_pdf`) -/

/-- Python `range(a, b)` over integers. -/
def pyRangeInt (a b : Int) : List Int :=
  (List.range (b - a).toNat).map (fun (i : Nat) => a + (i : Int))

/-- Python list indexing `pages[i]`: negative indices address from the
end; an index out of range on either side is an `IndexError`, modelled as
`none`. -/
def pyGetPage (pages : List α) (i : Int) : Option α :=
  if 0 ≤ i then pages[i.toNat]?
  else if 0 ≤ (pages.length : Int) + i then pages[((pages.length : Int) + i).toNat]?
  else none

/-- The per-section body of `split_pdf`: pages `start_page - 1` to
`end_page - 1` (0-based) of the source, each added only when its index is
below the document's page count. -/
def split_pdf_section (pages : List α) (cfg : SectionBounds) : List α :=
  let start := cfg.start_page - 1
  ((pyRangeInt start cfg.end_page).filter
    (fun i => i < (pages.length : Int))).filterMap (pyGetPage pages)

/-- `split_pdf`: one output page list per configured section. -/
def split_pdf (pages : List α) (config : List (String × SectionBounds)) :
    List (String × List α) :=
  config.map (fun nc => (nc.1, split_pdf_section pages nc.2))

/-! ### Per-file text conversion (`pdf_to_txt`, `process_directory`) -/

/-- `os.path.basename`: the part after the last `/`. -/
def basenameOf (p : List Char) : List Char :=
  (p.reverse.takeWhile (fun c => c ≠ '/')).reverse

/-- `os.path.splitext(...)[0]` on a basename: drop the last `.` and what
follows it, when a `.` is present. -/
def splitextBase (p : List Char) : List Char :=
  if p.contains '.' then ((p.reverse.dropWhile (fun c => c ≠ '.')).drop 1).reverse
  else p

/-- `str.lower()` (ASCII fragment). -/
def lowerChars (p : List Char) : List Char := p.map Char.toLower

/-- Dictionary lookup `section_configs.get(name, PageNumbering(1, False))`. -/
def lookupConfig (cfgs : List (String × PageNumbering)) (name : List Char) :
    PageNumbering :=
  match cfgs.find? (fun kv => kv.1.data == name) with
  | some kv => kv.2
  | none => PageNumbering.init 1 false

/-- The page-assembly loop of `pdf_to_txt`: for the `toc` section each
cleaned page is appended bare; otherwise it is prefixed with the marker
`"\n[Page <page_string(i)>]\n"`. -/
def assemblePages (baseLower : List Char) (pn : PageNumbering)
    (pages : List String) : List (List Char) :=
  pages.enum.map (fun ip =>
    let cleaned := cleanTextL ip.2.data
    if baseLower == "toc".data then cleaned
    else ("\n[Page " ++ (pn.get_page_string ip.1).1 ++ "]\n").data ++ cleaned)

/-- `pdf_to_txt(pdf_path, ...)`: the whole body runs under a `try` that
catches every exception, prints `Error processing <path>: <e>` and
returns `None`.  The page source is modelled as `Except` (the text the
PDF reader would produce, or the exception it raises); the returned pair
is the function result and the lines printed. -/
def pdf_to_txt (pdf_path : String) (pages : Except String (List String))
    (section_configs : List (String × PageNumbering)) :
    Option String × List String :=
  let baseLower := lowerChars (splitextBase (basenameOf pdf_path.data))
  let pn := lookupConfig section_configs baseLower
  match pages with
  | .error e => (none, ["Error processing " ++ pdf_path ++ ": " ++ e])
  | .ok ps => (some ⟨joinSep ['\n'] (assemblePages baseLower pn ps)⟩, [])

/-- `process_directory`: every listed PDF file is converted
independently; one entry of output (and printed report) per file. -/
def process_directory (files : List (String × Except String (List String)))
    (section_configs : List (String × PageNumbering)) :
    List (String × (Option String × List String)) :=
  files.map (fun f => (f.1, pdf_to_txt f.1 f.2 section_configs))

/-! ### Table-of-contents extraction -/

/-- Separator characters of the TOC dot-leader pattern: dots, spaces, or
the ellipsis character. -/
def tocSepChar (c : Char) : Bool := c == '.' || c == ' ' || c == '…'

/-- Modelled from the spec: the repository's TOC-table script
(`TocExtractor`) is not among the files under `src/`; only the `toc`
routing in `pdf_to_txt` is.  Per the spec, a line matches when it ends in
a nonempty digit run preceded by a nonempty separator run of
dots/ellipsis/space; the (non-greedy) title is everything before the
separator run.  Returns `(title, page)` on a match. -/
def tocMatchLine (l : List Char) : Option (List Char × List Char) :=
  let rev := l.reverse
  let digs := rev.takeWhile Char.isDigit
  let rest := rev.dropWhile Char.isDigit
  let sep := rest.takeWhile tocSepChar
  if digs.isEmpty || sep.isEmpty then none
  else some ((rest.dropWhile tocSepChar).reverse, digs.reverse)

/-- Modelled from the spec: escape a literal `|` in a title as `\|`. -/
def escBar : List Char → List Char
  | [] => []
  | c :: r => (if c == '|' then ['\\', '|'] else [c]) ++ escBar r

/-- Modelled from the spec: one markdown row `| title | page |` with the
title trimmed and `|`-escaped. -/
def tocRow (tp : List Char × List Char) : List Char :=
  "| ".data ++ escBar (stripWsEnds tp.1) ++ " | ".data ++ tp.2 ++ " |".data

/-- Modelled from the spec: scan the normalized TOC text line by line; if
at least one line matches, render header, separator and one row per
match, in order; otherwise return the input unchanged. -/
def toc_extract (text : String) : String :=
  let rows := (splitOnNl text.data).filterMap tocMatchLine
  if rows.isEmpty then text
  else ⟨joinSep ['\n']
    ("| Section | Page |".data :: "|---------|------|".data :: rows.map tocRow)⟩

/-! ### Small auxiliary definitions used in the statements -/

/-- Substring test: does `pat` occur contiguously inside `l`? -/
def containsSub (pat : List Char) : List Char → Bool
  | [] => pat.isEmpty
  | c :: rest => pat.isPrefixOf (c :: rest) || containsSub pat rest

/-- A tabular row on which only Chapter 2 is present, with a
non-integer first page (`Ch2FP = "abc"`, `Ch2LP = "5"`). -/
def rowCh2Bad : Row :=
  { present := fun f => f == "Ch2Present",
    val := fun f => if f == "Ch2FP" then "abc" else "5" }

/-- A tabular row on which only the abstract is present, with a
non-integer first page (`AbstractFP = "abc"`, `AbstractLP = "5"`). -/
def rowAbstractBad : Row :=
  { present := fun f => f == "AbstractPresent",
    val := fun f => if f == "AbstractFP" then "abc" else "5" }

/-- No whitespace character is immediately followed by one of the six
spacing-fix punctuation characters.  On such text the spacing-fix regex
`\s+([.,!?;:])` finds no match. -/
def adjFree : List Char → Prop
  | [] => True
  | [_] => True
  | a :: b :: t => (pyWs a = true → punct6 b = false) ∧ adjFree (b :: t)

/-- `current_length` as a function of `current_line`: each word counts
its length plus one separating space. -/
def sumw (ws : List (List Char)) : Nat :=
  (ws.map (fun w => w.length + 1)).sum

end PdfToLlm

namespace PdfToLlm

/-! ## Claim C2 -/

/-- Counterexample to C2: `clean_text` applied to `"Hello   world!!"`
does not return `"Hello world!"` — the character filter keeps `!`, it
never deduplicates repeated punctuation. -/
theorem clean_text_hello_not_single_bang :
    clean_text "Hello   world!!" ≠ "Hello world!" := by decide

/-- C2 (amended): `clean_text "Hello   world!!"` collapses the three
spaces to one and keeps both exclamation marks, returning exactly
`"Hello world!!"`. -/
theorem clean_text_hello_world : clean_text "Hello   world!!" = "Hello world!!" := by
  decide

/-! ## Claim C7: page numbering -/

set_option maxRecDepth 10000 in
theorem to_roman_chunk_a : ∀ n : Nat, n < 1000 → to_roman (n + 1) = romanRef (n + 1) := by
  decide

set_option maxRecDepth 10000 in
theorem to_roman_chunk_b : ∀ n : Nat, n < 1000 → to_roman (n + 1001) = romanRef (n + 1001) := by
  decide

set_option maxRecDepth 10000 in
theorem to_roman_chunk_c : ∀ n : Nat, n < 1000 → to_roman (n + 2001) = romanRef (n + 2001) := by
  decide

set_option maxRecDepth 10000 in
theorem to_roman_chunk_d : ∀ n : Nat, n < 999 → to_roman (n + 3001) = romanRef (n + 3001) := by
  decide

/-- The greedy `_to_roman` agrees with the positional reference table on
all of `1..3999`. -/
theorem to_roman_agrees_ref (n : Nat) (h1 : 1 ≤ n) (h2 : n ≤ 3999) :
    to_roman n = romanRef n := by
  rcases Nat.lt_or_ge n 1001 with h | h
  · have := to_roman_chunk_a (n - 1) (by omega)
    rwa [show n - 1 + 1 = n by omega] at this
  rcases Nat.lt_or_ge n 2001 with h' | h'
  · have := to_roman_chunk_b (n - 1001) (by omega)
    rwa [show n - 1001 + 1001 = n by omega] at this
  rcases Nat.lt_or_ge n 3001 with h'' | h''
  · have := to_roman_chunk_c (n - 2001) (by omega)
    rwa [show n - 2001 + 2001 = n by omega] at this
  · have := to_roman_chunk_d (n - 3001) (by omega)
    rwa [show n - 3001 + 3001 = n by omega] at this

/-- C7: for `start_page ≥ 1` and any offset (with the absolute page in
the roman table's range), `get_page_string` renders `start_page + offset`
— the reference lowercase subtractive roman numeral under the roman
scheme, the decimal string otherwise — and it leaves the object,
including the stored `_current` counter, unchanged; `to_roman 1994` is
`"mcmxciv"`. -/
theorem get_page_string_renders (sp off : Nat) (h1 : 1 ≤ sp)
    (h2 : sp + off ≤ 3999) :
    ((PageNumbering.init sp true).get_page_string off).1 = romanRef (sp + off) ∧
    ((PageNumbering.init sp false).get_page_string off).1 = pyStr (sp + off) ∧
    ((PageNumbering.init sp true).get_page_string off).2 = PageNumbering.init sp true ∧
    ((PageNumbering.init sp false).get_page_string off).2 = PageNumbering.init sp false ∧
    to_roman 1994 = "mcmxciv" := by
  refine ⟨?_, rfl, rfl, rfl, by decide⟩
  simpa [PageNumbering.get_page_string, PageNumbering.init] using
    to_roman_agrees_ref (sp + off) (by omega) h2

/-- Witness for C7 at `start_page = 5`, roman, offset 2 (the spec's
`page_string(2) == "vii"` example). -/
theorem get_page_string_renders_witness :
    1 ≤ 5 ∧ 5 + 2 ≤ 3999 ∧
    ((PageNumbering.init 5 true).get_page_string 2).1 = romanRef (5 + 2) ∧
    romanRef (5 + 2) = "vii" := by
  refine ⟨by decide, by decide, (get_page_string_renders 5 2 (by decide) (by decide)).1,
    by decide⟩

/-! ## Claim C1: table-of-contents extraction -/

/-- C1 (spec-modelled): if at least one line of the accumulated
normalized text matches the title/dot-leader/page pattern, the output is
the markdown table — header row, separator row, then one row per match in
order of appearance; with zero matches the input is returned unchanged. -/
theorem toc_extract_table_or_id (text : String) :
    ((splitOnNl text.data).filterMap tocMatchLine ≠ [] →
      toc_extract text = ⟨joinSep ['\n']
        ("| Section | Page |".data :: "|---------|------|".data ::
          ((splitOnNl text.data).filterMap tocMatchLine).map tocRow)⟩) ∧
    ((splitOnNl text.data).filterMap tocMatchLine = [] →
      toc_extract text = text) := by
  constructor
  · intro h
    simp only [toc_extract, List.isEmpty_iff]
    rw [if_neg h]
  · intro h
    simp only [toc_extract, List.isEmpty_iff]
    rw [if_pos h]

/-- Witness for C1: the spec's §8 examples, one matching and one not. -/
theorem toc_extract_table_or_id_witness :
    toc_extract "Introduction .......... 1\nMethods .... 15\n" =
      "| Section | Page |\n|---------|------|\n| Introduction | 1 |\n| Methods | 15 |" ∧
    toc_extract "no matches here" = "no matches here" := by
  constructor
  · rw [(toc_extract_table_or_id "Introduction .......... 1\nMethods .... 15\n").1
      (by decide)]
    decide
  · exact (toc_extract_table_or_id "no matches here").2 (by decide)

/-! ## Claim C9: PDF splitting -/

theorem filterMap_filter_of_none (g : α → Option β) (p : α → Bool)
    (h : ∀ x, p x = false → g x = none) :
    ∀ l : List α, (l.filter p).filterMap g = l.filterMap g := by
  intro l
  induction l with
  | nil => rfl
  | cons a l ih =>
    by_cases hp : p a
    · simp [List.filter_cons, hp, List.filterMap_cons, ih]
    · simp only [Bool.not_eq_true] at hp
      simp [List.filter_cons, hp, List.filterMap_cons, h a hp, ih]

theorem range_filterMap_get (pages : List α) :
    ∀ (a cnt : Nat),
      (List.range cnt).filterMap (fun i => pages[a + i]?) =
        (pages.drop a).take cnt := by
  induction pages with
  | nil =>
    intro a cnt
    simp [List.filterMap_eq_nil_iff]
  | cons p ps ih =>
    intro a cnt
    cases a with
    | zero =>
      cases cnt with
      | zero => simp
      | succ cnt =>
        simp only [Nat.zero_add]
        rw [List.range_succ_eq_map, List.filterMap_cons, List.filterMap_map]
        have hfun : ((fun i => (p :: ps)[i]?) ∘ Nat.succ) = fun i => ps[i]? := by
          funext i
          simp
        have ih0 := ih 0 cnt
        simp only [Nat.zero_add, List.drop_zero] at ih0
        simp only [hfun, List.getElem?_cons_zero, ih0]
        simp
    | succ a =>
      have hfun : (fun i => (p :: ps)[a + 1 + i]?) = fun i => ps[a + i]? := by
        funext i
        rw [show a + 1 + i = (a + i) + 1 from by omega, List.getElem?_cons_succ]
      rw [hfun, ih a cnt, List.drop_succ_cons]

/-- With `start_page ≥ 1`, the per-section split is exactly the 1-based
inclusive slice `start_page..end_page` of the source pages, clipped to
the document's length. -/
theorem split_section_slice (pages : List α) (cfg : SectionBounds)
    (h1 : 1 ≤ cfg.start_page) :
    split_pdf_section pages cfg =
      (pages.drop (cfg.start_page - 1).toNat).take
        (cfg.end_page + 1 - cfg.start_page).toNat := by
  have h0 : 0 ≤ cfg.start_page - 1 := by omega
  unfold split_pdf_section
  have hnone : ∀ x : Int,
      (decide (x < (pages.length : Int))) = false → pyGetPage pages x = none := by
    intro x hx
    simp only [decide_eq_false_iff_not, not_lt] at hx
    unfold pyGetPage
    rw [if_pos (by omega)]
    apply List.getElem?_eq_none
    omega
  rw [filterMap_filter_of_none _ _ hnone]
  unfold pyRangeInt
  rw [List.filterMap_map]
  have hgf : (pyGetPage pages ∘ fun i : Nat => cfg.start_page - 1 + (i : Int)) =
      fun i : Nat => pages[(cfg.start_page - 1).toNat + i]? := by
    funext i
    simp only [Function.comp_apply, pyGetPage]
    rw [if_pos (by omega)]
    congr 1
    omega
  rw [hgf, range_filterMap_get]
  congr 1
  omega

/-- C9: for a section configuration with `start_page ≥ 1`, `split_pdf`
copies exactly the source pages with 1-based indices
`start_page..end_page` inclusive, in order, silently skipping indices
beyond the document's last page. -/
theorem split_pdf_copies_inclusive_range (pages : List α)
    (config : List (String × SectionBounds)) (nc : String × SectionBounds)
    (hmem : nc ∈ config) (h1 : 1 ≤ nc.2.start_page) :
    split_pdf_section pages nc.2 =
      (pages.drop (nc.2.start_page - 1).toNat).take
        (nc.2.end_page + 1 - nc.2.start_page).toNat ∧
    (nc.1, (pages.drop (nc.2.start_page - 1).toNat).take
        (nc.2.end_page + 1 - nc.2.start_page).toNat) ∈ split_pdf pages config := by
  refine ⟨split_section_slice pages nc.2 h1, ?_⟩
  have hm : (nc.1, split_pdf_section pages nc.2) ∈ split_pdf pages config :=
    List.mem_map_of_mem _ hmem
  rwa [split_section_slice pages nc.2 h1] at hm

/-- Witness for C9: a five-page document, section pages 2..4. -/
theorem split_pdf_copies_inclusive_range_witness :
    split_pdf_section ["p1", "p2", "p3", "p4", "p5"]
      (⟨2, 4, false⟩ : SectionBounds) = ["p2", "p3", "p4"] := by
  have h := (split_pdf_copies_inclusive_range ["p1", "p2", "p3", "p4", "p5"]
    [("x", ⟨2, 4, false⟩)] ("x", ⟨2, 4, false⟩) (by decide) (by decide)).1
  rw [h]
  decide

/-! ## Claim C4: configuration errors -/

theorem containsSub_append_self (pat suf : List Char) :
    containsSub pat (pat ++ suf) = true := by
  cases pat with
  | nil =>
    cases suf with
    | nil => rfl
    | cons c r => simp [containsSub, List.isPrefixOf]
  | cons p pr =>
    rw [show (p :: pr) ++ suf = p :: (pr ++ suf) from rfl, containsSub]
    have hpre : (p :: pr).isPrefixOf (p :: (pr ++ suf)) = true := by
      rw [List.isPrefixOf_iff_prefix]
      simp
    rw [hpre, Bool.true_or]

theorem containsSub_sandwich :
    ∀ (pre pat suf : List Char), containsSub pat (pre ++ (pat ++ suf)) = true := by
  intro pre
  induction pre with
  | nil =>
    intro pat suf
    rw [List.nil_append]
    exact containsSub_append_self pat suf
  | cons c pre ih =>
    intro pat suf
    rw [show (c :: pre) ++ (pat ++ suf) = c :: (pre ++ (pat ++ suf)) from rfl,
      containsSub, ih pat suf, Bool.or_true]

theorem str_data_append (a b : String) : (a ++ b).data = a.data ++ b.data := by
  cases a
  cases b
  rfl

/-- The chapter error message names the chapter and carries both raw
field values. -/
theorem chapterErrMsg_contains (i : Nat) (fp lp : String) :
    containsSub ("Chapter " ++ pyStr i).data (chapterErrMsg i fp lp).data = true ∧
    containsSub fp.data (chapterErrMsg i fp lp).data = true ∧
    containsSub lp.data (chapterErrMsg i fp lp).data = true := by
  refine ⟨?_, ?_, ?_⟩
  · have h := containsSub_sandwich "Invalid page numbers for ".data
      ("Chapter " ++ pyStr i).data
      (" (Present=True). Expected integers for start page (" ++ fp ++ ") " ++
        "and end page (" ++ lp ++ ")").data
    simpa [chapterErrMsg, str_data_append, List.append_assoc] using h
  · have h := containsSub_sandwich
      ("Invalid page numbers for Chapter " ++ pyStr i ++ " (Present=True). " ++
        "Expected integers for start page (").data fp.data
      (") " ++ "and end page (" ++ lp ++ ")").data
    simpa [chapterErrMsg, str_data_append, List.append_assoc] using h
  · have h := containsSub_sandwich
      ("Invalid page numbers for Chapter " ++ pyStr i ++ " (Present=True). " ++
        "Expected integers for start page (" ++ fp ++ ") " ++ "and end page (").data
      lp.data ")".data
    simpa [chapterErrMsg, str_data_append, List.append_assoc] using h

theorem chaptersGo_skip (row : Row) :
    ∀ l : List Nat,
      (∀ i ∈ l, row.present ("Ch" ++ pyStr i ++ "Present") = false) →
      chaptersGo row l = .ok [] := by
  intro l
  induction l with
  | nil => intro _; rfl
  | cons i l ih =>
    intro h
    simp only [chaptersGo, h i (List.mem_cons_self i l), Bool.false_eq_true, if_false]
    exact ih fun j hj => h j (List.mem_cons_of_mem _ hj)

theorem chaptersGo_first_bad (row : Row) (i : Nat) :
    ∀ l : List Nat, i ∈ l →
      (∀ j ∈ l, j ≠ i → row.present ("Ch" ++ pyStr j ++ "Present") = false) →
      row.present ("Ch" ++ pyStr i ++ "Present") = true →
      (pyIntParse (row.val ("Ch" ++ pyStr i ++ "FP")) = none ∨
        pyIntParse (row.val ("Ch" ++ pyStr i ++ "LP")) = none) →
      chaptersGo row l =
        .error (chapterErrMsg i (row.val ("Ch" ++ pyStr i ++ "FP"))
          (row.val ("Ch" ++ pyStr i ++ "LP"))) := by
  intro l
  induction l with
  | nil => intro hmem; cases hmem
  | cons j l ih =>
    intro hmem hothers hpres hbad
    by_cases hj : j = i
    · subst hj
      simp only [chaptersGo, hpres, if_true]
      rcases hbad with hb | hb
      · rw [hb]
      · rw [hb]
        cases pyIntParse (row.val ("Ch" ++ pyStr j ++ "FP")) <;> rfl
    · have hskip := hothers j (List.mem_cons_self j l) hj
      simp only [chaptersGo, hskip, Bool.false_eq_true, if_false]
      have hmem' : i ∈ l := by
        rcases List.mem_cons.1 hmem with h | h
        · exact absurd h.symm hj
        · exact h
      exact ih hmem' (fun k hk => hothers k (List.mem_cons_of_mem _ hk)) hpres hbad

theorem sectionsGo_first_bad (row : Row) (kp : String × String) :
    ∀ maps : List (String × String), kp ∈ maps →
      (∀ kp2 ∈ maps, kp2 ≠ kp → row.present (kp2.2 ++ "Present") = false) →
      row.present (kp.2 ++ "Present") = true →
      ((pyIntParse (row.val (kp.2 ++ "FP")) = none →
          sectionsGo row maps = .error (intErrMsg (row.val (kp.2 ++ "FP")))) ∧
        (∀ v, pyIntParse (row.val (kp.2 ++ "FP")) = some v →
          pyIntParse (row.val (kp.2 ++ "LP")) = none →
          sectionsGo row maps = .error (intErrMsg (row.val (kp.2 ++ "LP"))))) := by
  intro maps
  induction maps with
  | nil => intro hmem; cases hmem
  | cons hd tl ih =>
    intro hmem hothers hpres
    by_cases hhd : hd = kp
    · subst hhd
      constructor
      · intro hfp
        simp only [sectionsGo, hpres, if_true, hfp]
      · intro v hfp hlp
        simp only [sectionsGo, hpres, if_true, hfp, hlp]
    · have hskip := hothers hd (List.mem_cons_self hd tl) hhd
      have hmem' : kp ∈ tl := by
        rcases List.mem_cons.1 hmem with h | h
        · exact absurd h.symm hhd
        · exact h
      have hres := ih hmem' (fun k hk => hothers k (List.mem_cons_of_mem _ hk)) hpres
      constructor
      · intro hfp
        simp only [sectionsGo, hskip, Bool.false_eq_true, if_false]
        exact hres.1 hfp
      · intro v hfp hlp
        simp only [sectionsGo, hskip, Bool.false_eq_true, if_false]
        exact hres.2 v hfp hlp

/-- Counterexample to C4: with only the abstract present and
`AbstractFP = "abc"`, configuration generation raises the bare `int()`
`ValueError`, whose message does not name the abstract section (it
contains no occurrence of `"bstract"`). -/
theorem generate_config_abstract_error_unnamed :
    generate_thesis_config rowAbstractBad =
      .error "invalid literal for int() with base 10: 'abc'" ∧
    containsSub "bstract".data
      "invalid literal for int() with base 10: 'abc'".data = false := by
  exact ⟨rfl, by decide⟩

/-- C4 (amended): when the first failing section of the row is a chapter,
the raised `ValueError` names that chapter and carries both raw page
values; when it is one of the named sections, the raised `ValueError` is
the bare `int()` error carrying only the first offending raw value (and,
per the counterexample, not naming the section). -/
theorem generate_config_first_failure (row : Row) :
    (∀ i ∈ (List.range 12).map (· + 1),
      (∀ j ∈ (List.range 12).map (· + 1), j ≠ i →
        row.present ("Ch" ++ pyStr j ++ "Present") = false) →
      row.present ("Ch" ++ pyStr i ++ "Present") = true →
      (pyIntParse (row.val ("Ch" ++ pyStr i ++ "FP")) = none ∨
        pyIntParse (row.val ("Ch" ++ pyStr i ++ "LP")) = none) →
      generate_thesis_config row =
        .error (chapterErrMsg i (row.val ("Ch" ++ pyStr i ++ "FP"))
          (row.val ("Ch" ++ pyStr i ++ "LP"))) ∧
      containsSub ("Chapter " ++ pyStr i).data
        (chapterErrMsg i (row.val ("Ch" ++ pyStr i ++ "FP"))
          (row.val ("Ch" ++ pyStr i ++ "LP"))).data = true ∧
      containsSub (row.val ("Ch" ++ pyStr i ++ "FP")).data
        (chapterErrMsg i (row.val ("Ch" ++ pyStr i ++ "FP"))
          (row.val ("Ch" ++ pyStr i ++ "LP"))).data = true ∧
      containsSub (row.val ("Ch" ++ pyStr i ++ "LP")).data
        (chapterErrMsg i (row.val ("Ch" ++ pyStr i ++ "FP"))
          (row.val ("Ch" ++ pyStr i ++ "LP"))).data = true) ∧
    (∀ kp ∈ sectionMappings,
      (∀ j ∈ (List.range 12).map (· + 1),
        row.present ("Ch" ++ pyStr j ++ "Present") = false) →
      (∀ kp2 ∈ sectionMappings, kp2 ≠ kp →
        row.present (kp2.2 ++ "Present") = false) →
      row.present (kp.2 ++ "Present") = true →
      ((pyIntParse (row.val (kp.2 ++ "FP")) = none →
          generate_thesis_config row = .error (intErrMsg (row.val (kp.2 ++ "FP")))) ∧
        (∀ v, pyIntParse (row.val (kp.2 ++ "FP")) = some v →
          pyIntParse (row.val (kp.2 ++ "LP")) = none →
          generate_thesis_config row =
            .error (intErrMsg (row.val (kp.2 ++ "LP")))))) := by
  constructor
  · intro i hi hothers hpres hbad
    refine ⟨?_, chapterErrMsg_contains i _ _⟩
    have hch := chaptersGo_first_bad row i _ hi hothers hpres hbad
    simp only [generate_thesis_config, hch]
  · intro kp hkp hchabsent hothers hpres
    have hch := chaptersGo_skip row _ hchabsent
    have hsec := sectionsGo_first_bad row kp _ hkp hothers hpres
    constructor
    · intro hfp
      simp only [generate_thesis_config, hch, hsec.1 hfp]
    · intro v hfp hlp
      simp only [generate_thesis_config, hch, hsec.2 v hfp hlp]

/-- Witness for C4 (amended): the spec's `Ch2Present=True, Ch2FP="abc",
Ch2LP="5"` row yields the chapter error naming Chapter 2. -/
theorem generate_config_first_failure_witness :
    generate_thesis_config rowCh2Bad =
      .error ("Invalid page numbers for Chapter 2 (Present=True). " ++
        "Expected integers for start page (abc) and end page (5)") ∧
    containsSub "Chapter 2".data
      (chapterErrMsg 2 "abc" "5").data = true := by
  have h := (generate_config_first_failure rowCh2Bad).1 2 (by decide) (by decide)
    (by decide) (Or.inl (by decide))
  refine ⟨?_, ?_⟩
  · rw [h.1]
    rfl
  · have h2 := h.2.1
    revert h2
    decide

/-! ## Claim C8: per-section failure isolation -/

/-- C8: when one file's page source raises, `process_directory` still
maps every other file — before and after the failing one — to its
converted text; the failing file contributes a `None` result together
with a report naming it, and every successfully read file produces its
assembled output with an empty error report. -/
theorem process_directory_isolates_failures
    (pre post : List (String × Except String (List String)))
    (name e : String) (cfgs : List (String × PageNumbering)) :
    process_directory (pre ++ (name, Except.error e) :: post) cfgs =
      process_directory pre cfgs ++
        ((name, (none, ["Error processing " ++ name ++ ": " ++ e])) ::
          process_directory post cfgs) ∧
    (∀ f ∈ pre ++ post, ∀ ps, f.2 = Except.ok ps →
      (f.1, pdf_to_txt f.1 f.2 cfgs) ∈
          process_directory (pre ++ (name, Except.error e) :: post) cfgs ∧
      (pdf_to_txt f.1 f.2 cfgs).1.isSome = true ∧
      (pdf_to_txt f.1 f.2 cfgs).2 = []) := by
  constructor
  · simp only [process_directory, List.map_append, List.map_cons]
    rfl
  · intro f hf ps hok
    have hmem : f ∈ pre ++ (name, Except.error e) :: post := by
      rcases List.mem_append.1 hf with h | h
      · exact List.mem_append.2 (Or.inl h)
      · exact List.mem_append.2 (Or.inr (List.mem_cons_of_mem _ h))
    refine ⟨List.mem_map_of_mem _ hmem, ?_, ?_⟩
    · rw [hok]
      rfl
    · rw [hok]
      rfl

/-- Witness for C8: a three-file run whose middle file fails. -/
theorem process_directory_isolates_failures_witness :
    process_directory
      [("chapter_2.pdf", Except.ok ["x"]),
       ("chapter_3.pdf", Except.error "boom"),
       ("chapter_4.pdf", Except.ok ["y"])] [] =
      [("chapter_2.pdf", (some "\n[Page 1]\nx", [])),
       ("chapter_3.pdf", (none, ["Error processing chapter_3.pdf: boom"])),
       ("chapter_4.pdf", (some "\n[Page 1]\ny", []))] := by
  have h := (process_directory_isolates_failures
    [("chapter_2.pdf", Except.ok ["x"])] [("chapter_4.pdf", Except.ok ["y"])]
    "chapter_3.pdf" "boom" []).1
  rw [show ([("chapter_2.pdf", Except.ok ["x"])] ++
      ("chapter_3.pdf", Except.error "boom") ::
        [("chapter_4.pdf", Except.ok (["y"] : List String))]) =
    [("chapter_2.pdf", Except.ok ["x"]), ("chapter_3.pdf", Except.error "boom"),
     ("chapter_4.pdf", Except.ok ["y"])] from rfl] at h
  rw [h]
  rfl

/-! ## Structural lemmas about the text pipeline -/

theorem collapseGo_mem :
    ∀ (l : List Char) (b : Bool) (c : Char), c ∈ collapseGo b l → c = ' ' ∨ c ∈ l := by
  intro l
  induction l with
  | nil => intro b c h; cases h
  | cons a l ih =>
    intro b c h
    by_cases ha : pyWs a
    · simp only [collapseGo, ha, if_true] at h
      rcases List.mem_append.1 h with h | h
      · cases b
        · simp at h
          exact Or.inl h
        · simp at h
      · rcases ih true c h with h | h
        · exact Or.inl h
        · exact Or.inr (List.mem_cons_of_mem _ h)
    · simp only [collapseGo, ha, if_false] at h
      rcases List.mem_cons.1 h with h | h
      · exact Or.inr (h ▸ List.mem_cons_self a l)
      · rcases ih false c h with h | h
        · exact Or.inl h
        · exact Or.inr (List.mem_cons_of_mem _ h)

theorem collapseGo_ws_space :
    ∀ (l : List Char) (b : Bool) (c : Char),
      c ∈ collapseGo b l → pyWs c = true → c = ' ' := by
  intro l
  induction l with
  | nil => intro b c h; cases h
  | cons a l ih =>
    intro b c h hws
    by_cases ha : pyWs a
    · simp only [collapseGo, ha, if_true] at h
      rcases List.mem_append.1 h with h | h
      · cases b
        · simp at h; exact h
        · simp at h
      · exact ih true c h hws
    · simp only [collapseGo, ha, if_false] at h
      rcases List.mem_cons.1 h with h | h
      · subst h; exact absurd hws (by simpa using ha)
      · exact ih false c h hws

theorem fixGo_mem :
    ∀ (l pending : List Char) (c : Char),
      c ∈ fixGo pending l → c ∈ pending ∨ c ∈ l := by
  intro l
  induction l with
  | nil => intro pending c h; exact Or.inl h
  | cons a l ih =>
    intro pending c h
    by_cases ha : pyWs a
    · simp only [fixGo, ha, if_true] at h
      rcases ih (pending ++ [a]) c h with h | h
      · rcases List.mem_append.1 h with h | h
        · exact Or.inl h
        · simp at h
          exact Or.inr (h ▸ List.mem_cons_self a l)
      · exact Or.inr (List.mem_cons_of_mem _ h)
    · simp only [fixGo, ha, if_false] at h
      by_cases hb : punct6 a && !pending.isEmpty
      · rw [if_pos hb] at h
        rcases List.mem_cons.1 h with h | h
        · exact Or.inr (h ▸ List.mem_cons_self a l)
        · rcases ih [] c h with h | h
          · cases h
          · exact Or.inr (List.mem_cons_of_mem _ h)
      · rw [if_neg hb] at h
        rcases List.mem_append.1 h with h | h
        · exact Or.inl h
        · rcases List.mem_cons.1 h with h | h
          · exact Or.inr (h ▸ List.mem_cons_self a l)
          · rcases ih [] c h with h | h
            · cases h
            · exact Or.inr (List.mem_cons_of_mem _ h)

theorem stripWsEnds_mem {l : List Char} {c : Char} (h : c ∈ stripWsEnds l) : c ∈ l := by
  simp only [stripWsEnds, List.mem_reverse] at h
  have h1 := (List.dropWhile_sublist (l := (l.dropWhile pyWs).reverse) pyWs).subset h
  rw [List.mem_reverse] at h1
  exact (List.dropWhile_sublist pyWs).subset h1

theorem splitNlGo_mem :
    ∀ (l acc : List Char) (p : List Char), p ∈ splitNlGo acc l →
      ∀ c ∈ p, c ∈ acc ∨ c ∈ l := by
  intro l
  induction l with
  | nil =>
    intro acc p hp c hc
    simp only [splitNlGo, List.mem_singleton] at hp
    exact Or.inl (hp ▸ hc)
  | cons a l ih =>
    intro acc p hp c hc
    by_cases ha : a == '\n'
    · simp only [splitNlGo, ha, if_true] at hp
      rcases List.mem_cons.1 hp with h | h
      · exact Or.inl (h ▸ hc)
      · rcases ih [] p h c hc with h' | h'
        · cases h'
        · exact Or.inr (List.mem_cons_of_mem _ h')
    · simp only [splitNlGo, ha, if_false] at hp
      rcases ih (acc ++ [a]) p hp c hc with h' | h'
      · rcases List.mem_append.1 h' with h' | h'
        · exact Or.inl h'
        · simp at h'
          exact Or.inr (h' ▸ List.mem_cons_self a l)
      · exact Or.inr (List.mem_cons_of_mem _ h')

theorem splitNlGo_no_nl :
    ∀ (l acc : List Char), (∀ c ∈ acc, c ≠ '\n') →
      ∀ p ∈ splitNlGo acc l, ∀ c ∈ p, c ≠ '\n' := by
  intro l
  induction l with
  | nil =>
    intro acc hacc p hp
    simp only [splitNlGo, List.mem_singleton] at hp
    exact hp ▸ hacc
  | cons a l ih =>
    intro acc hacc p hp
    by_cases ha : a == '\n'
    · simp only [splitNlGo, ha, if_true] at hp
      rcases List.mem_cons.1 hp with h | h
      · exact h ▸ hacc
      · exact ih [] (by intro c hc; cases hc) p h
    · simp only [splitNlGo, ha, if_false] at hp
      refine ih (acc ++ [a]) ?_ p hp
      intro c hc
      rcases List.mem_append.1 hc with h | h
      · exact hacc c h
      · simp at h
        subst h
        simpa using ha

theorem splitNlGo_ne : ∀ (l acc : List Char), splitNlGo acc l ≠ [] := by
  intro l
  induction l with
  | nil => intro acc; simp [splitNlGo]
  | cons a l ih =>
    intro acc
    by_cases ha : a == '\n'
    · simp [splitNlGo, ha]
    · simp only [splitNlGo, ha, if_false]
      exact ih (acc ++ [a])

theorem splitWsGo_mem :
    ∀ (l acc : List Char) (w : List Char), w ∈ splitWsGo acc l →
      ∀ c ∈ w, c ∈ acc ∨ c ∈ l := by
  intro l
  induction l with
  | nil =>
    intro acc w hw c hc
    by_cases hacc : acc.isEmpty
    · simp [splitWsGo, hacc] at hw
    · simp only [splitWsGo] at hw
      rw [if_neg hacc] at hw
      simp only [List.mem_singleton] at hw
      exact Or.inl (hw ▸ hc)
  | cons a l ih =>
    intro acc w hw c hc
    by_cases ha : pyWs a
    · simp only [splitWsGo, ha, if_true] at hw
      rcases List.mem_append.1 hw with h | h
      · by_cases hacc : acc.isEmpty
        · simp [hacc] at h
        · rw [if_neg hacc] at h
          simp only [List.mem_singleton] at h
          exact Or.inl (h ▸ hc)
      · rcases ih [] w h c hc with h' | h'
        · cases h'
        · exact Or.inr (List.mem_cons_of_mem _ h')
    · simp only [splitWsGo, ha, if_false] at hw
      rcases ih (acc ++ [a]) w hw c hc with h' | h'
      · rcases List.mem_append.1 h' with h' | h'
        · exact Or.inl h'
        · simp at h'
          exact Or.inr (h' ▸ List.mem_cons_self a l)
      · exact Or.inr (List.mem_cons_of_mem _ h')

theorem splitWsGo_words :
    ∀ (l acc : List Char), (∀ c ∈ acc, pyWs c = false) →
      ∀ w ∈ splitWsGo acc l, w ≠ [] ∧ ∀ c ∈ w, pyWs c = false := by
  intro l
  induction l with
  | nil =>
    intro acc hacc w hw
    by_cases h : acc.isEmpty
    · simp [splitWsGo, h] at hw
    · simp only [splitWsGo] at hw
      rw [if_neg h] at hw
      simp only [List.mem_singleton] at hw
      subst hw
      exact ⟨by simpa [List.isEmpty_iff] using h, hacc⟩
  | cons a l ih =>
    intro acc hacc w hw
    by_cases ha : pyWs a
    · simp only [splitWsGo, ha, if_true] at hw
      rcases List.mem_append.1 hw with h | h
      · by_cases hacc' : acc.isEmpty
        · simp [hacc'] at h
        · rw [if_neg hacc'] at h
          simp only [List.mem_singleton] at h
          subst h
          exact ⟨by simpa [List.isEmpty_iff] using hacc', hacc⟩
      · exact ih [] (by intro c hc; cases hc) w h
    · simp only [splitWsGo, ha, if_false] at hw
      refine ih (acc ++ [a]) ?_ w hw
      intro c hc
      rcases List.mem_append.1 hc with h | h
      · exact hacc c h
      · simp at h
        subst h
        simpa using ha

theorem joinSep_mem :
    ∀ (ls : List (List Char)) (sep : List Char) (c : Char),
      c ∈ joinSep sep ls → c ∈ sep ∨ ∃ l ∈ ls, c ∈ l := by
  intro ls
  induction ls with
  | nil => intro sep c h; cases h
  | cons l ls ih =>
    intro sep c h
    cases ls with
    | nil =>
      simp only [joinSep] at h
      exact Or.inr ⟨l, List.mem_singleton_self l, h⟩
    | cons l' ls' =>
      simp only [joinSep] at h
      rcases List.mem_append.1 h with h | h
      · rcases List.mem_append.1 h with h | h
        · exact Or.inr ⟨l, List.mem_cons_self _ _, h⟩
        · exact Or.inl h
      · rcases ih sep c h with h' | ⟨x, hx, hcx⟩
        · exact Or.inl h'
        · exact Or.inr ⟨x, List.mem_cons_of_mem _ hx, hcx⟩

theorem wrapWordsGo_flatten (width : Nat) :
    ∀ (ws cur : List (List Char)) (clen : Nat),
      (wrapWordsGo width ws cur clen).flatten = cur ++ ws := by
  intro ws
  induction ws with
  | nil =>
    intro cur clen
    by_cases h : cur.isEmpty
    · simp [wrapWordsGo, h, List.isEmpty_iff.1 h]
    · simp [wrapWordsGo, h]
  | cons w ws ih =>
    intro cur clen
    simp only [wrapWordsGo]
    by_cases h : width < clen + (w.length + 1)
    · simp only [h, if_true, List.flatten_cons, ih]
      rfl
    · simp only [h, if_false, ih]
      simp

theorem wrapWordsGo_ne (width : Nat) :
    ∀ (ws cur : List (List Char)) (clen : Nat), cur ≠ [] ∨ ws ≠ [] →
      wrapWordsGo width ws cur clen ≠ [] := by
  intro ws
  induction ws with
  | nil =>
    intro cur clen h
    rcases h with h | h
    · simp [wrapWordsGo, List.isEmpty_iff, h]
    · exact absurd rfl h
  | cons w ws ih =>
    intro cur clen _
    simp only [wrapWordsGo]
    by_cases h : width < clen + (w.length + 1)
    · simp [h]
    · simp only [h, if_false]
      exact ih (cur ++ [w]) (clen + (w.length + 1)) (Or.inl (by simp))

theorem wrapWordsGo_all_ne (width : Nat) :
    ∀ (ws cur : List (List Char)) (clen : Nat), cur ≠ [] →
      ∀ line ∈ wrapWordsGo width ws cur clen, line ≠ [] := by
  intro ws
  induction ws with
  | nil =>
    intro cur clen hcur line hline
    simp only [wrapWordsGo, List.isEmpty_iff] at hline
    rw [if_neg hcur] at hline
    simp only [List.mem_singleton] at hline
    exact hline ▸ hcur
  | cons w ws ih =>
    intro cur clen hcur line hline
    simp only [wrapWordsGo] at hline
    by_cases h : width < clen + (w.length + 1)
    · rw [if_pos h] at hline
      rcases List.mem_cons.1 hline with h' | h'
      · exact h' ▸ hcur
      · exact ih [w] (w.length + 1) (by simp) line h'
    · rw [if_neg h] at hline
      exact ih (cur ++ [w]) (clen + (w.length + 1)) (by simp) line hline

/-- The greedy loop's output is either all-nonempty lines, or a single
leading empty line (the flush before an oversized first word) followed by
nonempty lines. -/
theorem wrapWords_shape (width : Nat) (ws : List (List Char)) (hws : ws ≠ []) :
    (∀ line ∈ wrapWords width ws, line ≠ []) ∨
    (∃ rest, wrapWords width ws = [] :: rest ∧ rest ≠ [] ∧
      ∀ line ∈ rest, line ≠ []) := by
  match ws, hws with
  | w :: ws, _ =>
    simp only [wrapWords, wrapWordsGo]
    by_cases h : width < 0 + (w.length + 1)
    · rw [if_pos h]
      refine Or.inr ⟨wrapWordsGo width ws [w] (w.length + 1), rfl, ?_, ?_⟩
      · exact wrapWordsGo_ne width ws [w] _ (Or.inl (by simp))
      · exact wrapWordsGo_all_ne width ws [w] _ (by simp)
    · rw [if_neg h]
      exact Or.inl (wrapWordsGo_all_ne width ws [w] _ (by simp))

/-! ### `splitWs` structure lemmas -/

theorem splitWsGo_acc_ne :
    ∀ (l acc : List Char), acc ≠ [] → splitWsGo acc l ≠ [] := by
  intro l
  induction l with
  | nil =>
    intro acc hacc
    simp [splitWsGo, List.isEmpty_iff, hacc]
  | cons a l ih =>
    intro acc hacc
    by_cases ha : pyWs a
    · simp only [splitWsGo, ha, if_true]
      intro h
      rcases List.append_eq_nil.1 h with ⟨h1, _⟩
      rw [if_neg (by simpa [List.isEmpty_iff] using hacc)] at h1
      cases h1
    · simp only [splitWsGo, ha, if_false]
      exact ih (acc ++ [a]) (by simp)

theorem splitWsGo_first :
    ∀ (l acc : List Char), acc ≠ [] →
      ∃ t ts, splitWsGo acc l = (acc ++ t) :: ts := by
  intro l
  induction l with
  | nil =>
    intro acc hacc
    refine ⟨[], [], ?_⟩
    simp [splitWsGo, List.isEmpty_iff, hacc]
  | cons a l ih =>
    intro acc hacc
    by_cases ha : pyWs a
    · refine ⟨[], splitWsGo [] l, ?_⟩
      simp only [splitWsGo, ha, if_true]
      rw [if_neg (by simpa [List.isEmpty_iff] using hacc)]
      simp
    · rcases ih (acc ++ [a]) (by simp) with ⟨t, ts, hts⟩
      refine ⟨a :: t, ts, ?_⟩
      simp only [splitWsGo, ha, if_false]
      rw [hts]
      simp

theorem splitWsGo_append_ws (sep : Char) (hsep : pyWs sep = true) (ys : List Char) :
    ∀ (xs acc : List Char),
      splitWsGo acc (xs ++ sep :: ys) = splitWsGo acc xs ++ splitWsGo [] ys := by
  intro xs
  induction xs with
  | nil =>
    intro acc
    simp only [List.nil_append, splitWsGo, hsep, if_true]
  | cons a xs ih =>
    intro acc
    by_cases ha : pyWs a
    · rw [show splitWsGo acc ((a :: xs) ++ sep :: ys) =
          (if acc.isEmpty then [] else [acc]) ++ splitWsGo [] (xs ++ sep :: ys)
          from by simp [splitWsGo, ha],
        show splitWsGo acc (a :: xs) =
          (if acc.isEmpty then [] else [acc]) ++ splitWsGo [] xs
          from by simp [splitWsGo, ha],
        ih [], List.append_assoc]
    · rw [show splitWsGo acc ((a :: xs) ++ sep :: ys) =
          splitWsGo (acc ++ [a]) (xs ++ sep :: ys) from by simp [splitWsGo, ha],
        show splitWsGo acc (a :: xs) = splitWsGo (acc ++ [a]) xs
          from by simp [splitWsGo, ha],
        ih (acc ++ [a])]

theorem splitWs_append_ws (sep : Char) (hsep : pyWs sep = true)
    (xs ys : List Char) :
    splitWs (xs ++ sep :: ys) = splitWs xs ++ splitWs ys :=
  splitWsGo_append_ws sep hsep ys xs []

theorem splitWsGo_single :
    ∀ (w acc : List Char), (∀ c ∈ w, pyWs c = false) → acc ++ w ≠ [] →
      splitWsGo acc w = [acc ++ w] := by
  intro w
  induction w with
  | nil =>
    intro acc _ hne
    simp only [List.append_nil] at hne ⊢
    simp [splitWsGo, List.isEmpty_iff, hne]
  | cons c w ih =>
    intro acc hw hne
    have hc : pyWs c = false := hw c (List.mem_cons_self c w)
    simp only [splitWsGo, hc, Bool.false_eq_true, if_false]
    rw [ih (acc ++ [c]) (fun d hd => hw d (List.mem_cons_of_mem _ hd)) (by simp)]
    simp

theorem splitWs_single (w : List Char) (hw : ∀ c ∈ w, pyWs c = false)
    (hne : w ≠ []) : splitWs w = [w] := by
  have := splitWsGo_single w [] hw (by simpa using hne)
  simpa using this

theorem splitWs_ws_prefix :
    ∀ (run l : List Char), (∀ c ∈ run, pyWs c = true) →
      splitWs (run ++ l) = splitWs l := by
  intro run
  induction run with
  | nil => intro l _; rfl
  | cons r run ih =>
    intro l hrun
    have hr : pyWs r = true := hrun r (List.mem_cons_self r run)
    show splitWsGo [] (r :: (run ++ l)) = splitWs l
    simp only [splitWsGo, hr, if_true, List.isEmpty_nil, if_true]
    exact ih l fun c hc => hrun c (List.mem_cons_of_mem _ hc)

theorem splitWs_all_ws (l : List Char) (h : ∀ c ∈ l, pyWs c = true) :
    splitWs l = [] := by
  have := splitWs_ws_prefix l [] h
  simpa using this

theorem splitWs_ws_suffix (l run : List Char) (hrun : ∀ c ∈ run, pyWs c = true) :
    splitWs (l ++ run) = splitWs l := by
  cases run with
  | nil => simp
  | cons r run =>
    rw [splitWs_append_ws r (hrun r (List.mem_cons_self r run)) l run,
      splitWs_all_ws run fun c hc => hrun c (List.mem_cons_of_mem _ hc)]
    simp

theorem splitWs_ne_of_not_ws (l : List Char) (c : Char) (hc : c ∈ l)
    (hcw : pyWs c = false) : splitWs l ≠ [] := by
  intro h
  induction l with
  | nil => cases hc
  | cons a l ih =>
    by_cases ha : pyWs a
    · simp only [splitWs, splitWsGo, ha, if_true, List.isEmpty_nil, if_true,
        List.nil_append] at h
      rcases List.mem_cons.1 hc with h' | h'
      · subst h'
        rw [ha] at hcw
        cases hcw
      · exact ih h' h
    · simp only [splitWs, splitWsGo, ha, Bool.false_eq_true, if_false] at h
      exact splitWsGo_acc_ne l [a] (by simp) h

/-- Decomposition of `strip`: the input is a whitespace run, then the
stripped core, then a whitespace run. -/
theorem stripWsEnds_decomp (l : List Char) :
    ∃ run1 run2, (∀ c ∈ run1, pyWs c = true) ∧ (∀ c ∈ run2, pyWs c = true) ∧
      l = run1 ++ stripWsEnds l ++ run2 := by
  refine ⟨l.takeWhile pyWs, ((l.dropWhile pyWs).reverse.takeWhile pyWs).reverse,
    ?_, ?_, ?_⟩
  · intro c hc
    exact List.mem_takeWhile_imp hc
  · intro c hc
    rw [List.mem_reverse] at hc
    exact List.mem_takeWhile_imp hc
  · have key : l.dropWhile pyWs =
        stripWsEnds l ++ ((l.dropWhile pyWs).reverse.takeWhile pyWs).reverse := by
      have h2 : (l.dropWhile pyWs).reverse =
          (l.dropWhile pyWs).reverse.takeWhile pyWs ++
            (l.dropWhile pyWs).reverse.dropWhile pyWs :=
        (List.takeWhile_append_dropWhile pyWs _).symm
      calc l.dropWhile pyWs = (l.dropWhile pyWs).reverse.reverse := by simp
        _ = ((l.dropWhile pyWs).reverse.takeWhile pyWs ++
              (l.dropWhile pyWs).reverse.dropWhile pyWs).reverse := by rw [← h2]
        _ = ((l.dropWhile pyWs).reverse.dropWhile pyWs).reverse ++
              ((l.dropWhile pyWs).reverse.takeWhile pyWs).reverse := by
            rw [List.reverse_append]
        _ = stripWsEnds l ++
              ((l.dropWhile pyWs).reverse.takeWhile pyWs).reverse := rfl
    calc l = l.takeWhile pyWs ++ l.dropWhile pyWs :=
          (List.takeWhile_append_dropWhile pyWs _).symm
      _ = l.takeWhile pyWs ++ (stripWsEnds l ++
            ((l.dropWhile pyWs).reverse.takeWhile pyWs).reverse) := by rw [← key]
      _ = l.takeWhile pyWs ++ stripWsEnds l ++
            ((l.dropWhile pyWs).reverse.takeWhile pyWs).reverse :=
          (List.append_assoc _ _ _).symm

theorem splitWs_stripWsEnds (l : List Char) :
    splitWs (stripWsEnds l) = splitWs l := by
  rcases stripWsEnds_decomp l with ⟨run1, run2, h1, h2, hl⟩
  conv_rhs => rw [hl]
  rw [List.append_assoc, splitWs_ws_prefix run1 _ h1,
    splitWs_ws_suffix (stripWsEnds l) run2 h2]

theorem dropWhile_dropWhile (p : Char → Bool) (l : List Char) :
    (l.dropWhile p).dropWhile p = l.dropWhile p := by
  induction l with
  | nil => rfl
  | cons a l ih =>
    by_cases pa : p a
    · simp [List.dropWhile_cons, pa, ih]
    · simp [List.dropWhile_cons, pa]

theorem dropWhile_append_singleton (p : Char → Bool) (c : Char) (hc : p c = false) :
    ∀ xs : List Char, ∃ pre, (xs ++ [c]).dropWhile p = pre ++ [c] := by
  intro xs
  induction xs with
  | nil => exact ⟨[], by simp [List.dropWhile_cons, hc]⟩
  | cons x xs ih =>
    by_cases hx : p x
    · rcases ih with ⟨pre, hpre⟩
      exact ⟨pre, by simp [List.dropWhile_cons, hx, hpre]⟩
    · exact ⟨x :: xs, by simp [List.dropWhile_cons, hx]⟩

/-! ### Adjacency (whitespace-before-punctuation) lemmas -/

theorem punct6_not_ws {c : Char} (h : punct6 c = true) : pyWs c = false := by
  simp only [punct6, Bool.or_eq_true, beq_iff_eq] at h
  rcases h with ((((rfl | rfl) | rfl) | rfl) | rfl) | rfl <;> rfl

theorem ws_not_punct6 {c : Char} (h : pyWs c = true) : punct6 c = false := by
  cases hp : punct6 c
  · rfl
  · rw [punct6_not_ws hp] at h
    cases h

theorem adjFree_cons_iff (c : Char) (l : List Char) :
    adjFree (c :: l) ↔
      (∀ d, l.head? = some d → pyWs c = true → punct6 d = false) ∧ adjFree l := by
  cases l with
  | nil => simp [adjFree]
  | cons b t =>
    show (pyWs c = true → punct6 b = false) ∧ adjFree (b :: t) ↔ _
    constructor
    · rintro ⟨h1, h2⟩
      refine ⟨?_, h2⟩
      intro d hd hws
      simp only [List.head?_cons, Option.some_inj] at hd
      exact hd ▸ h1 hws
    · rintro ⟨h1, h2⟩
      exact ⟨h1 b rfl, h2⟩

theorem adjFree_tail {c : Char} {l : List Char} (h : adjFree (c :: l)) :
    adjFree l :=
  ((adjFree_cons_iff c l).1 h).2

theorem adjFree_append_right :
    ∀ {xs ys : List Char}, adjFree (xs ++ ys) → adjFree ys := by
  intro xs
  induction xs with
  | nil => intro ys h; exact h
  | cons a xs ih =>
    intro ys h
    exact ih (adjFree_tail h)

theorem adjFree_append_left :
    ∀ {xs ys : List Char}, adjFree (xs ++ ys) → adjFree xs := by
  intro xs
  induction xs with
  | nil => intro ys _; trivial
  | cons a xs ih =>
    intro ys h
    rw [List.cons_append] at h
    rcases (adjFree_cons_iff a (xs ++ ys)).1 h with ⟨h1, h2⟩
    refine (adjFree_cons_iff a xs).2 ⟨?_, ih h2⟩
    intro d hd hws
    refine h1 d ?_ hws
    cases xs with
    | nil => cases hd
    | cons x xs' =>
      simp only [List.head?_cons, Option.some_inj] at hd
      simp [hd]

theorem adjFree_all_ws :
    ∀ {l : List Char}, (∀ c ∈ l, pyWs c = true) → adjFree l := by
  intro l
  induction l with
  | nil => intro _; trivial
  | cons a l ih =>
    intro h
    refine (adjFree_cons_iff a l).2 ⟨?_, ih fun c hc => h c (List.mem_cons_of_mem _ hc)⟩
    intro d hd _
    have hdmem : d ∈ l := by
      cases l with
      | nil => cases hd
      | cons x xs =>
        simp only [List.head?_cons, Option.some_inj] at hd
        simp [hd]
    exact ws_not_punct6 (h d (List.mem_cons_of_mem _ hdmem))

theorem adjFree_wsfree :
    ∀ {l : List Char}, (∀ c ∈ l, pyWs c = false) → adjFree l := by
  intro l
  induction l with
  | nil => intro _; trivial
  | cons a l ih =>
    intro h
    refine (adjFree_cons_iff a l).2
      ⟨?_, ih fun c hc => h c (List.mem_cons_of_mem _ hc)⟩
    intro d _ hws
    rw [h a (List.mem_cons_self a l)] at hws
    cases hws

theorem adjFree_append :
    ∀ {xs ys : List Char}, adjFree xs → adjFree ys →
      (∀ a b, xs.getLast? = some a → ys.head? = some b →
        pyWs a = true → punct6 b = false) →
      adjFree (xs ++ ys) := by
  intro xs
  induction xs with
  | nil => intro ys _ h2 _; exact h2
  | cons a xs ih =>
    intro ys h1 h2 hb
    rw [List.cons_append]
    rcases (adjFree_cons_iff a xs).1 h1 with ⟨hp, ht⟩
    refine (adjFree_cons_iff a (xs ++ ys)).2 ⟨?_, ?_⟩
    · intro d hd hws
      cases xs with
      | nil =>
        simp only [List.nil_append] at hd
        exact hb a d rfl hd hws
      | cons x xs' =>
        simp only [List.cons_append, List.head?_cons, Option.some_inj] at hd
        exact hp d (by simp [hd]) hws
    · refine ih ht h2 ?_
      intro a' b ha' hbhead hws
      refine hb a' b ?_ hbhead hws
      cases xs with
      | nil => cases ha'
      | cons x xs' =>
        rw [List.getLast?_cons_cons]
        exact ha'

theorem adjFree_append_pair :
    ∀ {xs : List Char} {c : Char} {ys : List Char},
      adjFree (xs ++ c :: ys) → ∀ a, xs.getLast? = some a →
      pyWs a = true → punct6 c = false := by
  intro xs
  induction xs with
  | nil => intro c ys _ a ha; cases ha
  | cons x xs ih =>
    intro c ys h a ha hws
    cases xs with
    | nil =>
      simp only [List.getLast?_singleton, Option.some_inj] at ha
      rw [ha] at h
      rcases (adjFree_cons_iff a (c :: ys)).1 h with ⟨hp, _⟩
      exact hp c rfl hws
    | cons x' xs' =>
      rw [List.getLast?_cons_cons] at ha
      exact ih (adjFree_tail h) a ha hws

theorem joinSep_head (w : List Char) (rest : List (List Char)) (hw : w ≠ []) :
    (joinSep [' '] (w :: rest)).head? = w.head? := by
  cases rest with
  | nil => rfl
  | cons r rest' =>
    match w, hw with
    | c :: w', _ => rfl

/-- Single spaces between nonempty whitespace-free words whose inner
words do not begin with spacing-fix punctuation give adjacency-free
text. -/
theorem adjFree_joinSep_space :
    ∀ (W : List (List Char)),
      (∀ w ∈ W, w ≠ [] ∧ ∀ c ∈ w, pyWs c = false) →
      (∀ w ∈ W.drop 1, ∀ d, w.head? = some d → punct6 d = false) →
      adjFree (joinSep [' '] W) := by
  intro W
  induction W with
  | nil => intro _ _; trivial
  | cons w W ih =>
    intro hwords hinner
    cases W with
    | nil =>
      exact adjFree_wsfree (hwords w (List.mem_cons_self w _)).2
    | cons w' rest =>
      show adjFree (w ++ [' '] ++ joinSep [' '] (w' :: rest))
      rw [List.append_assoc]
      refine adjFree_append
        (adjFree_wsfree (hwords w (List.mem_cons_self w _)).2) ?_ ?_
      · rw [show ([' '] : List Char) ++ joinSep [' '] (w' :: rest) =
          ' ' :: joinSep [' '] (w' :: rest) from rfl]
        refine (adjFree_cons_iff ' ' _).2 ⟨?_, ?_⟩
        · intro d hd _
          rw [joinSep_head w' rest (hwords w' (by simp)).1] at hd
          exact hinner w' (by simp) d hd
        · refine ih (fun x hx => hwords x (List.mem_cons_of_mem _ hx)) ?_
          intro x hx d hd
          exact hinner x (List.mem_cons_of_mem _ hx) d hd
      · intro a b _ hb _
        rw [show (([' '] : List Char) ++ joinSep [' '] (w' :: rest)).head? =
          some ' ' from rfl] at hb
        simp only [Option.some_inj] at hb
        subst hb
        rfl

/-! ### `fixPunct` lemmas -/

theorem fixGo_id :
    ∀ (l pending : List Char), adjFree (pending ++ l) →
      (∀ c ∈ pending, pyWs c = true) → fixGo pending l = pending ++ l := by
  intro l
  induction l with
  | nil => intro pending _ _; simp [fixGo]
  | cons c rest ih =>
    intro pending hadj hws
    by_cases hc : pyWs c
    · rw [show fixGo pending (c :: rest) = fixGo (pending ++ [c]) rest
        from by simp [fixGo, hc]]
      rw [ih (pending ++ [c])
        (by rw [List.append_assoc]; simpa using hadj)
        (by
          intro d hd
          rcases List.mem_append.1 hd with h | h
          · exact hws d h
          · simp at h
            exact h ▸ hc)]
      simp
    · by_cases hp : punct6 c && !pending.isEmpty
      · exfalso
        rw [Bool.and_eq_true] at hp
        rcases hp with ⟨hp6, hpe⟩
        have hpne : pending ≠ [] := by
          simpa [List.isEmpty_iff] using hpe
        have hlast := List.getLast?_eq_getLast pending hpne
        have hlws : pyWs (pending.getLast hpne) = true :=
          hws _ (List.getLast_mem hpne)
        have := adjFree_append_pair hadj (pending.getLast hpne) hlast hlws
        rw [hp6] at this
        cases this
      · rw [show fixGo pending (c :: rest) = pending ++ c :: fixGo [] rest
          from by simp [fixGo, hc, hp]]
        have hrest : adjFree rest :=
          adjFree_tail (@adjFree_append_right pending (c :: rest) hadj)
        rw [show fixGo [] rest = rest from by
          have := ih [] (by simpa using hrest) (by intro d hd; cases hd)
          simpa using this]

theorem fixPunct_id {l : List Char} (h : adjFree l) : fixPunct l = l := by
  have := fixGo_id l [] (by simpa using h) (by intro d hd; cases hd)
  simpa using this

theorem fixGo_adjFree :
    ∀ (l pending : List Char), (∀ c ∈ pending, pyWs c = true) →
      adjFree (fixGo pending l) := by
  intro l
  induction l with
  | nil =>
    intro pending hws
    simp only [fixGo]
    exact adjFree_all_ws hws
  | cons c rest ih =>
    intro pending hws
    by_cases hc : pyWs c
    · rw [show fixGo pending (c :: rest) = fixGo (pending ++ [c]) rest
        from by simp [fixGo, hc]]
      refine ih (pending ++ [c]) ?_
      intro d hd
      rcases List.mem_append.1 hd with h | h
      · exact hws d h
      · simp at h
        exact h ▸ hc
    · by_cases hp : punct6 c && !pending.isEmpty
      · rw [show fixGo pending (c :: rest) = c :: fixGo [] rest
          from by simp [fixGo, hc, hp]]
        refine (adjFree_cons_iff c _).2 ⟨?_, ih [] (by intro d hd; cases hd)⟩
        intro d _ hcw
        rw [hcw] at hc
        exact absurd rfl hc
      · rw [show fixGo pending (c :: rest) = pending ++ c :: fixGo [] rest
          from by simp [fixGo, hc, hp]]
        refine adjFree_append (adjFree_all_ws hws) ?_ ?_
        · refine (adjFree_cons_iff c _).2 ⟨?_, ih [] (by intro d hd; cases hd)⟩
          intro d _ hcw
          rw [hcw] at hc
          exact absurd rfl hc
        · intro a b ha hb _
          have hpne : pending ≠ [] := by
            intro h
            rw [h] at ha
            cases ha
          have hp6 : punct6 c = false := by
            by_contra hcc
            apply hp
            rw [Bool.and_eq_true]
            refine ⟨by simpa using hcc, ?_⟩
            simpa [List.isEmpty_iff] using hpne
          simp only [List.head?_cons, Option.some_inj] at hb
          exact hb ▸ hp6

theorem fixGo_ws_run :
    ∀ (run pending rest : List Char),
      (∀ c ∈ pending, pyWs c = true) → (∀ c ∈ run, pyWs c = true) →
      adjFree rest → (∀ d, rest.head? = some d → pyWs d = false) →
      fixGo pending (run ++ rest) = pending ++ run ++ rest ∨
      fixGo pending (run ++ rest) = rest := by
  intro run
  induction run with
  | nil =>
    intro pending rest h1 _ hadj hrest
    cases rest with
    | nil =>
      left
      simp [fixGo]
    | cons d rest' =>
      have hd : pyWs d = false := hrest d rfl
      have hfix : fixGo [] rest' = rest' := by
        have := fixGo_id rest' [] (by simpa using adjFree_tail hadj)
          (by intro x hx; cases hx)
        simpa using this
      by_cases hp : punct6 d && !pending.isEmpty
      · right
        rw [show fixGo pending ([] ++ d :: rest') = d :: fixGo [] rest'
          from by simp [fixGo, hd, hp]]
        rw [hfix]
      · left
        rw [show fixGo pending ([] ++ d :: rest') = pending ++ d :: fixGo [] rest'
          from by simp [fixGo, hd, hp]]
        rw [hfix]
        simp
  | cons r run' ih =>
    intro pending rest h1 h2 hadj hrest
    have hr : pyWs r = true := h2 r (List.mem_cons_self r run')
    rw [show fixGo pending ((r :: run') ++ rest) = fixGo (pending ++ [r]) (run' ++ rest)
      from by simp [fixGo, hr]]
    rcases ih (pending ++ [r]) rest
      (by
        intro d hd
        rcases List.mem_append.1 hd with h | h
        · exact h1 d h
        · simp at h
          exact h ▸ hr)
      (fun c hc => h2 c (List.mem_cons_of_mem _ hc)) hadj hrest with h | h
    · left
      rw [h]
      simp
    · right
      exact h

/-- If the spacing-fix can only fire on the leading whitespace run (the
rest of the text is adjacency-free), the word decomposition is
untouched. -/
theorem splitWs_fixPunct (l : List Char)
    (h : adjFree (l.dropWhile pyWs)) :
    splitWs (fixPunct l) = splitWs l := by
  have hdec : l = l.takeWhile pyWs ++ l.dropWhile pyWs :=
    (List.takeWhile_append_dropWhile pyWs _).symm
  have hrun : ∀ c ∈ l.takeWhile pyWs, pyWs c = true :=
    fun c hc => List.mem_takeWhile_imp hc
  have hhead : ∀ d, (l.dropWhile pyWs).head? = some d → pyWs d = false := by
    intro d hd
    have := List.head?_dropWhile_not pyWs l
    rw [hd] at this
    simpa using this
  have := fixGo_ws_run (l.takeWhile pyWs) [] (l.dropWhile pyWs)
    (by intro c hc; cases hc) hrun h hhead
  rcases this with hfix | hfix
  · rw [fixPunct]
    conv_lhs => rw [hdec]
    rw [hfix]
    simp only [List.nil_append]
    rw [← hdec]
  · rw [fixPunct]
    conv_lhs => rw [hdec]
    rw [hfix, splitWs_ws_prefix _ _ hrun |>.symm, ← hdec]

/-! ### Exact collapse computation on wrapped output -/

theorem head?_append_ne {α : Type} (xs ys : List α) (h : xs ≠ []) :
    (xs ++ ys).head? = xs.head? := by
  cases xs with
  | nil => exact absurd rfl h
  | cons x xs' => rfl

theorem joinSep_head_sep (sep : List Char) (w : List Char)
    (rest : List (List Char)) (hw : w ≠ []) :
    (joinSep sep (w :: rest)).head? = w.head? := by
  cases rest with
  | nil => rfl
  | cons r rest' =>
    show ((w ++ sep) ++ joinSep sep (r :: rest')).head? = w.head?
    rw [head?_append_ne _ _ (by simp [hw]), head?_append_ne _ _ hw]

theorem joinSep_cons_ne (sep : List Char) (w : List Char)
    (rest : List (List Char)) (hw : w ≠ []) :
    joinSep sep (w :: rest) ≠ [] := by
  intro h
  have := joinSep_head_sep sep w rest hw
  rw [h] at this
  cases w with
  | nil => exact absurd rfl hw
  | cons c w' => cases this

theorem collapseGo_true_head (l : List Char)
    (h : ∀ c, l.head? = some c → pyWs c = false) :
    collapseGo true l = collapseGo false l := by
  cases l with
  | nil => rfl
  | cons c rest =>
    have hc := h c rfl
    simp [collapseGo, hc]

theorem collapseGo_wsfree_append :
    ∀ (w rest : List Char), (∀ c ∈ w, pyWs c = false) →
      collapseGo false (w ++ rest) = w ++ collapseGo false rest := by
  intro w
  induction w with
  | nil => intro rest _; rfl
  | cons c w' ih =>
    intro rest hw
    have hc : pyWs c = false := hw c (List.mem_cons_self c w')
    show collapseGo false (c :: (w' ++ rest)) = c :: (w' ++ collapseGo false rest)
    simp only [collapseGo, hc, Bool.false_eq_true, if_false]
    rw [ih rest fun d hd => hw d (List.mem_cons_of_mem _ hd)]

theorem collapseGo_sep (sep : Char) (hsep : pyWs sep = true) (rest : List Char)
    (h : ∀ c, rest.head? = some c → pyWs c = false) :
    collapseGo false (sep :: rest) = ' ' :: collapseGo false rest := by
  simp only [collapseGo, hsep, if_true, Bool.false_eq_true, if_false]
  rw [collapseGo_true_head rest h]
  rfl

theorem collapseGo_join_append :
    ∀ (W : List (List Char)) (tail : List Char),
      (∀ w ∈ W, w ≠ [] ∧ ∀ c ∈ w, pyWs c = false) →
      collapseGo false (joinSep [' '] W ++ tail) =
        joinSep [' '] W ++ collapseGo false tail := by
  intro W
  induction W with
  | nil => intro tail _; rfl
  | cons w W ih =>
    intro tail hw
    cases W with
    | nil => exact collapseGo_wsfree_append w tail (hw w (List.mem_cons_self w _)).2
    | cons w' W' =>
      show collapseGo false ((w ++ [' '] ++ joinSep [' '] (w' :: W')) ++ tail) = _
      rw [List.append_assoc, List.append_assoc,
        collapseGo_wsfree_append w _ (hw w (List.mem_cons_self w _)).2]
      rw [show ([' '] : List Char) ++ (joinSep [' '] (w' :: W') ++ tail) =
        ' ' :: (joinSep [' '] (w' :: W') ++ tail) from rfl]
      rw [collapseGo_sep ' ' (by decide) _ ?_]
      · rw [ih tail fun x hx => hw x (List.mem_cons_of_mem _ hx)]
        show w ++ ' ' :: (joinSep [' '] (w' :: W') ++ collapseGo false tail) =
          (w ++ [' '] ++ joinSep [' '] (w' :: W')) ++ collapseGo false tail
        simp [List.append_assoc]
      · intro c hc
        rw [head?_append_ne _ _
          (joinSep_cons_ne [' '] w' W' (hw w' (by simp)).1),
          joinSep_head_sep [' '] w' W' (hw w' (by simp)).1] at hc
        have hw' := hw w' (by simp)
        cases w' with
        | nil => exact absurd rfl hw'.1
        | cons d w'' =>
          simp only [List.head?_cons, Option.some_inj] at hc
          exact hc ▸ hw'.2 d (List.mem_cons_self d w'')

theorem joinSep_append_ne (sep : List Char) :
    ∀ (xs ys : List (List Char)), xs ≠ [] → ys ≠ [] →
      joinSep sep (xs ++ ys) = joinSep sep xs ++ sep ++ joinSep sep ys := by
  intro xs
  induction xs with
  | nil => intro ys h _; exact absurd rfl h
  | cons x xs ih =>
    intro ys _ hys
    cases xs with
    | nil =>
      cases ys with
      | nil => exact absurd rfl hys
      | cons y ys' => rfl
    | cons x' xs' =>
      show x ++ sep ++ joinSep sep ((x' :: xs') ++ ys) = _
      rw [ih ys (by simp) hys]
      show _ = (x ++ sep ++ joinSep sep (x' :: xs')) ++ sep ++ joinSep sep ys
      simp [List.append_assoc]

theorem splitWs_join_words :
    ∀ (W : List (List Char)),
      (∀ w ∈ W, w ≠ [] ∧ ∀ c ∈ w, pyWs c = false) →
      splitWs (joinSep [' '] W) = W := by
  intro W
  induction W with
  | nil => intro _; rfl
  | cons w W ih =>
    intro hw
    cases W with
    | nil =>
      exact splitWs_single w (hw w (List.mem_cons_self w _)).2
        (hw w (List.mem_cons_self w _)).1
    | cons w' W' =>
      show splitWs (w ++ [' '] ++ joinSep [' '] (w' :: W')) = _
      rw [List.append_assoc,
        show ([' '] : List Char) ++ joinSep [' '] (w' :: W') =
          ' ' :: joinSep [' '] (w' :: W') from rfl,
        splitWs_append_ws ' ' (by decide),
        splitWs_single w (hw w (List.mem_cons_self w _)).2
          (hw w (List.mem_cons_self w _)).1,
        ih fun x hx => hw x (List.mem_cons_of_mem _ hx)]
      rfl

theorem splitWs_render :
    ∀ (lines : List (List (List Char))),
      (∀ line ∈ lines, ∀ w ∈ line, w ≠ [] ∧ ∀ c ∈ w, pyWs c = false) →
      splitWs (joinSep ['\n'] (lines.map (joinSep [' ']))) = lines.flatten := by
  intro lines
  induction lines with
  | nil => intro _; rfl
  | cons line lines ih =>
    intro hw
    cases lines with
    | nil =>
      show splitWs (joinSep [' '] line) = _
      rw [splitWs_join_words line (hw line (List.mem_cons_self line _))]
      simp
    | cons l2 ls =>
      show splitWs (joinSep [' '] line ++ ['\n'] ++
        joinSep ['\n'] ((l2 :: ls).map (joinSep [' ']))) = _
      rw [List.append_assoc,
        show (['\n'] : List Char) ++ joinSep ['\n'] ((l2 :: ls).map (joinSep [' '])) =
          '\n' :: joinSep ['\n'] ((l2 :: ls).map (joinSep [' '])) from rfl,
        splitWs_append_ws '\n' (by decide),
        splitWs_join_words line (hw line (List.mem_cons_self line _)),
        ih fun x hx => hw x (List.mem_cons_of_mem _ hx)]
      simp

theorem collapse_render :
    ∀ (rest : List (List (List Char))) (line0 : List (List Char)), line0 ≠ [] →
      (∀ line ∈ rest, line ≠ []) →
      (∀ line ∈ line0 :: rest, ∀ w ∈ line, w ≠ [] ∧ ∀ c ∈ w, pyWs c = false) →
      collapseWs (joinSep ['\n'] ((line0 :: rest).map (joinSep [' ']))) =
        joinSep [' '] (line0 :: rest).flatten := by
  intro rest
  induction rest with
  | nil =>
    intro line0 _ _ hw
    show collapseGo false (joinSep [' '] line0) = joinSep [' '] (line0 :: []).flatten
    have := collapseGo_join_append line0 []
      (hw line0 (List.mem_cons_self line0 _))
    simpa [collapseGo] using this
  | cons line1 rest' ih =>
    intro line0 h0 hne hw
    have h1 : line1 ≠ [] := hne line1 (List.mem_cons_self line1 rest')
    have hw1 : ∀ w ∈ line1, w ≠ [] ∧ ∀ c ∈ w, pyWs c = false :=
      hw line1 (List.mem_cons_of_mem _ (List.mem_cons_self line1 rest'))
    have hw1' : line1.head? = some (line1.head h1) := List.head?_eq_head h1
    show collapseGo false (joinSep [' '] line0 ++ ['\n'] ++
      joinSep ['\n'] ((line1 :: rest').map (joinSep [' ']))) = _
    rw [List.append_assoc,
      collapseGo_join_append line0 _ (hw line0 (List.mem_cons_self line0 _)),
      show (['\n'] : List Char) ++ joinSep ['\n'] ((line1 :: rest').map (joinSep [' '])) =
        '\n' :: joinSep ['\n'] ((line1 :: rest').map (joinSep [' '])) from rfl,
      collapseGo_sep '\n' (by decide) _ ?_]
    · rw [show collapseGo false
          (joinSep ['\n'] ((line1 :: rest').map (joinSep [' ']))) =
        collapseWs (joinSep ['\n'] ((line1 :: rest').map (joinSep [' ']))) from rfl,
        ih line1 h1 (fun x hx => hne x (List.mem_cons_of_mem _ hx))
          (fun x hx => hw x (List.mem_cons_of_mem _ hx))]
      rw [show (line0 :: line1 :: rest').flatten =
        line0 ++ (line1 :: rest').flatten from rfl,
        joinSep_append_ne [' '] line0 ((line1 :: rest').flatten) h0 ?_]
      · simp
      · show line1 ++ rest'.flatten ≠ []
        simp [h1]
    · intro c hc
      have hJ1ne : joinSep [' '] line1 ≠ [] := by
        cases line1 with
        | nil => exact absurd rfl h1
        | cons w1 lrest => exact joinSep_cons_ne [' '] w1 lrest (hw1 w1 (by simp)).1
      rw [show ((line1 :: rest').map (joinSep [' '])) =
        joinSep [' '] line1 :: rest'.map (joinSep [' ']) from rfl,
        joinSep_head_sep ['\n'] _ _ hJ1ne] at hc
      cases line1 with
      | nil => exact absurd rfl h1
      | cons w1 lrest =>
        rw [joinSep_head_sep [' '] w1 lrest (hw1 w1 (by simp)).1] at hc
        have hword := hw1 w1 (by simp)
        cases w1 with
        | nil => exact absurd rfl hword.1
        | cons d w'' =>
          simp only [List.head?_cons, Option.some_inj] at hc
          exact hc ▸ hword.2 d (List.mem_cons_self d w'')

theorem collapse_render_quirk
    (rest : List (List (List Char))) (line1 : List (List Char))
    (rest' : List (List (List Char))) (hrest : rest = line1 :: rest')
    (h1 : line1 ≠ [])
    (hne : ∀ line ∈ rest, line ≠ [])
    (hw : ∀ line ∈ rest, ∀ w ∈ line, w ≠ [] ∧ ∀ c ∈ w, pyWs c = false) :
    collapseWs (joinSep ['\n'] (([] :: rest).map (joinSep [' ']))) =
      ' ' :: joinSep [' '] rest.flatten := by
  subst hrest
  show collapseGo false ([] ++ ['\n'] ++
    joinSep ['\n'] ((line1 :: rest').map (joinSep [' ']))) = _
  rw [List.nil_append,
    show (['\n'] : List Char) ++ joinSep ['\n'] ((line1 :: rest').map (joinSep [' '])) =
      '\n' :: joinSep ['\n'] ((line1 :: rest').map (joinSep [' '])) from rfl,
    collapseGo_sep '\n' (by decide) _ ?_]
  · rw [show collapseGo false
        (joinSep ['\n'] ((line1 :: rest').map (joinSep [' ']))) =
      collapseWs (joinSep ['\n'] ((line1 :: rest').map (joinSep [' ']))) from rfl,
      collapse_render rest' line1 h1
        (fun x hx => hne x (List.mem_cons_of_mem _ hx))
        (fun x hx => hw x hx)]
  · intro c hc
    have hw1 : ∀ w ∈ line1, w ≠ [] ∧ ∀ c ∈ w, pyWs c = false :=
      hw line1 (List.mem_cons_self line1 rest')
    have hJ1ne : joinSep [' '] line1 ≠ [] := by
      cases line1 with
      | nil => exact absurd rfl h1
      | cons w1 lrest => exact joinSep_cons_ne [' '] w1 lrest (hw1 w1 (by simp)).1
    rw [show ((line1 :: rest').map (joinSep [' '])) =
      joinSep [' '] line1 :: rest'.map (joinSep [' ']) from rfl,
      joinSep_head_sep ['\n'] _ _ hJ1ne] at hc
    cases line1 with
    | nil => exact absurd rfl h1
    | cons w1 lrest =>
      rw [joinSep_head_sep [' '] w1 lrest (hw1 w1 (by simp)).1] at hc
      have hword := hw1 w1 (by simp)
      cases w1 with
      | nil => exact absurd rfl hword.1
      | cons d w'' =>
        simp only [List.head?_cons, Option.some_inj] at hc
        exact hc ▸ hword.2 d (List.mem_cons_self d w'')

/-! ### Inner words of adjacency-free text -/

theorem splitWs_heads_aux :
    ∀ (n : Nat) (l : List Char), l.length ≤ n → adjFree l →
      (∀ acc, ∀ w ∈ (splitWsGo acc l).drop 1, ∀ d, w.head? = some d →
        punct6 d = false) ∧
      ((∀ c, l.head? = some c → pyWs c = true) →
        ∀ w ∈ splitWsGo [] l, ∀ d, w.head? = some d → punct6 d = false) := by
  intro n
  induction n with
  | zero =>
    intro l hl _
    have : l = [] := List.length_eq_zero.1 (Nat.le_zero.1 hl)
    subst this
    constructor
    · intro acc w hw
      by_cases h : acc.isEmpty
      · simp [splitWsGo, h] at hw
      · rw [show splitWsGo acc [] = [acc] from by simp [splitWsGo, h]] at hw
        simp at hw
    · intro _ w hw
      simp [splitWsGo] at hw
  | succ n ih =>
    intro l hl hadj
    cases l with
    | nil =>
      exact ih [] (by simp) hadj
    | cons a rest =>
      have hrest : adjFree rest := adjFree_tail hadj
      have hlen : rest.length ≤ n := by simpa using hl
      have hcover : pyWs a = true →
          ∀ w ∈ splitWsGo [] rest, ∀ d, w.head? = some d → punct6 d = false := by
        intro ha w hw
        cases rest with
        | nil => simp [splitWsGo] at hw
        | cons b rest' =>
          by_cases hb : pyWs b
          · refine (ih (b :: rest') hlen hrest).2 ?_ w hw
            intro c hc
            simp only [List.head?_cons, Option.some_inj] at hc
            exact hc ▸ hb
          · have hab : punct6 b = false :=
              ((adjFree_cons_iff a (b :: rest')).1 hadj).1 b rfl ha
            rw [show splitWsGo [] (b :: rest') = splitWsGo [b] rest'
              from by simp [splitWsGo, hb]] at hw
            rcases splitWsGo_first rest' [b] (by simp) with ⟨t, ts, hts⟩
            rw [hts] at hw
            rcases List.mem_cons.1 hw with h | h
            · intro d hd
              rw [h, show (([b] ++ t) : List Char).head? = some b from rfl] at hd
              simp only [Option.some_inj] at hd
              exact hd ▸ hab
            · have hw' : w ∈ (splitWsGo [b] rest').drop 1 := by
                rw [hts]
                simpa using h
              have hlen' : rest'.length ≤ n := by
                simp at hlen
                omega
              exact (ih rest' hlen' (adjFree_tail hrest)).1 [b] w hw'
      constructor
      · intro acc w hw
        by_cases ha : pyWs a
        · simp only [splitWsGo, ha, if_true] at hw
          by_cases hacc : acc.isEmpty
          · rw [if_pos hacc, List.nil_append] at hw
            exact (ih rest hlen hrest).1 [] w hw
          · rw [if_neg hacc] at hw
            simp only [List.singleton_append, List.drop_succ_cons,
              List.drop_zero] at hw
            exact hcover ha w hw
        · simp only [splitWsGo, ha, Bool.false_eq_true, if_false] at hw
          exact (ih rest hlen hrest).1 (acc ++ [a]) w hw
      · intro hws w hw
        have ha : pyWs a = true := hws a rfl
        simp only [splitWsGo, ha, if_true, List.isEmpty_nil, if_true,
          List.nil_append] at hw
        exact hcover ha w hw

/-- In adjacency-free text, no word after the first begins with one of
the six spacing-fix punctuation characters. -/
theorem splitWs_inner_heads (l : List Char) (h : adjFree l) :
    ∀ w ∈ (splitWs l).drop 1, ∀ d, w.head? = some d → punct6 d = false :=
  (splitWs_heads_aux l.length l le_rfl h).1 []

/-! ### Remaining plumbing lemmas -/

theorem dropWhile_head_nonws (l : List Char)
    (h : ∀ c, l.head? = some c → pyWs c = false) : l.dropWhile pyWs = l := by
  cases l with
  | nil => rfl
  | cons c rest =>
    have hc := h c rfl
    simp [List.dropWhile_cons, hc]

theorem splitNlGo_no_nl_eq :
    ∀ (l acc : List Char), (∀ c ∈ l, c ≠ '\n') →
      splitNlGo acc l = [acc ++ l] := by
  intro l
  induction l with
  | nil => intro acc _; simp [splitNlGo]
  | cons c rest ih =>
    intro acc h
    have hc : ¬(c == '\n') := by
      simpa using h c (List.mem_cons_self c rest)
    simp only [splitNlGo, hc, if_false]
    rw [ih (acc ++ [c]) fun d hd => h d (List.mem_cons_of_mem _ hd)]
    simp

theorem splitOnNl_single (l : List Char) (h : ∀ c ∈ l, c ≠ '\n') :
    splitOnNl l = [l] := by
  have := splitNlGo_no_nl_eq l [] h
  simpa using this

theorem isPrefixOf_cons_mem {c : Char} {pat l : List Char}
    (h : (c :: pat).isPrefixOf l = true) : c ∈ l := by
  cases l with
  | nil => cases h
  | cons d l' =>
    rw [List.isPrefixOf_iff_prefix] at h
    rcases h with ⟨t, ht⟩
    rw [show (c :: pat) ++ t = c :: (pat ++ t) from rfl] at ht
    rw [← ht]
    exact List.mem_cons_self c _

theorem pageMark_prefix_mem {l : List Char}
    (h : pageMarkChars.isPrefixOf l = true) : '[' ∈ l :=
  isPrefixOf_cons_mem h

theorem stripWsEnds_idem (l : List Char) :
    stripWsEnds (stripWsEnds l) = stripWsEnds l := by
  unfold stripWsEnds
  cases h : l.dropWhile pyWs with
  | nil => simp [h]
  | cons c rest =>
    have h2 : (c :: rest).dropWhile pyWs = c :: rest := by
      rw [← h, dropWhile_dropWhile]
    have hc : pyWs c = false := by
      have := List.head?_dropWhile_not pyWs l
      rw [h] at this
      simpa using this
    set s := ((c :: rest).reverse.dropWhile pyWs).reverse with hs
    have hrev : (c :: rest).reverse = rest.reverse ++ [c] := by simp
    have hsuffix : ∃ pre, (c :: rest).reverse.dropWhile pyWs = pre ++ [c] := by
      rw [hrev]
      exact dropWhile_append_singleton pyWs c hc rest.reverse
    rcases hsuffix with ⟨pre, hpre⟩
    have hshead : s = c :: pre.reverse := by
      rw [hs, hpre]
      simp
    have h1 : s.dropWhile pyWs = s := by
      rw [hshead]
      simp [List.dropWhile_cons, hc]
    rw [h1, hs]
    rw [List.reverse_reverse, dropWhile_dropWhile]

/-! ### Properties of the cleaning core -/

theorem normCore_kept (l : List Char) : ∀ c ∈ normCore l, isKeep c = true := by
  intro c hc
  have h1 : c ∈ fixPunct ((collapseWs l).filter isKeep) := stripWsEnds_mem hc
  rcases fixGo_mem _ [] c h1 with h | h
  · cases h
  · exact (List.mem_filter.1 h).2

theorem normCore_ws_space (l : List Char) :
    ∀ c ∈ normCore l, pyWs c = true → c = ' ' := by
  intro c hc hws
  have h1 : c ∈ fixPunct ((collapseWs l).filter isKeep) := stripWsEnds_mem hc
  rcases fixGo_mem _ [] c h1 with h | h
  · cases h
  · exact collapseGo_ws_space l false c (List.mem_filter.1 h).1 hws

theorem normCore_no_nl (l : List Char) : '\n' ∉ normCore l := by
  intro h
  have := normCore_ws_space l '\n' h (by decide)
  cases this

theorem normCore_no_lb (l : List Char) : '[' ∉ normCore l := by
  intro h
  have := normCore_kept l '[' h
  cases this

theorem normCore_strip (l : List Char) :
    stripWsEnds (normCore l) = normCore l :=
  stripWsEnds_idem _

theorem splitWs_words (l : List Char) :
    ∀ w ∈ splitWs l, w ≠ [] ∧ ∀ c ∈ w, pyWs c = false :=
  splitWsGo_words l [] (by intro c hc; cases hc)

/-- The two-case normal form of `clean_text`: empty input maps to the
empty string, anything else to the greedy re-wrapping of the cleaned
словa. -/
theorem cleanTextL_eq (l : List Char) :
    cleanTextL l = if normCore l = [] then [] else
      joinSep ['\n'] ((wrapWords 80 (splitWs (normCore l))).map (joinSep [' '])) := by
  by_cases hq : normCore l = []
  · rw [if_pos hq]
    show wrapTextL 80 (normCore l) = []
    rw [hq]
    rfl
  · rw [if_neg hq]
    show wrapTextL 80 (normCore l) = _
    unfold wrapTextL
    rw [splitOnNl_single _ (fun c hc hc' => absurd (hc' ▸ hc) (normCore_no_nl l))]
    rw [show ([normCore l].map (wrapParaLines 80)).flatten =
      wrapParaLines 80 (normCore l) from by simp]
    unfold wrapParaLines
    rw [normCore_strip]
    rw [if_neg (by simpa [List.isEmpty_iff] using hq)]
    rw [if_neg fun hpre => normCore_no_lb l (pageMark_prefix_mem hpre)]

theorem splitWs_cleanTextL (l : List Char) :
    splitWs (cleanTextL l) = splitWs (normCore l) := by
  by_cases hq : normCore l = []
  · rw [cleanTextL_eq l, if_pos hq, hq]
  · rw [cleanTextL_eq l, if_neg hq]
    have hflat : (wrapWords 80 (splitWs (normCore l))).flatten =
        splitWs (normCore l) := by
      have := wrapWordsGo_flatten 80 (splitWs (normCore l)) [] 0
      simpa [wrapWords] using this
    rw [splitWs_render _ ?_, hflat]
    intro line hline w hw
    refine splitWs_words (normCore l) w ?_
    rw [← hflat]
    exact List.mem_flatten_of_mem hline hw

/-- Core of C5: the full cleaning pass is idempotent at the character
level. -/
theorem cleanTextL_idem (l : List Char) :
    cleanTextL (cleanTextL l) = cleanTextL l := by
  by_cases hq : normCore l = []
  · rw [cleanTextL_eq l, if_pos hq]
    rfl
  · -- notation
    have hWwords : ∀ w ∈ splitWs (normCore l), w ≠ [] ∧ ∀ c ∈ w, pyWs c = false :=
      splitWs_words (normCore l)
    have hWne : splitWs (normCore l) ≠ [] := by
      intro h
      apply hq
      have hall : ∀ c ∈ normCore l, pyWs c = true := by
        intro c hc
        by_contra hcc
        exact splitWs_ne_of_not_ws (normCore l) c hc (by simpa using hcc) h
      have hdrop : (normCore l).dropWhile pyWs = [] :=
        List.dropWhile_eq_nil_iff.2 hall
      have : stripWsEnds (normCore l) = [] := by
        unfold stripWsEnds
        rw [hdrop]
        rfl
      rw [← normCore_strip l, this]
    have hinner : ∀ w ∈ (splitWs (normCore l)).drop 1, ∀ d, w.head? = some d →
        punct6 d = false := by
      have hzadj : adjFree (fixPunct ((collapseWs l).filter isKeep)) :=
        fixGo_adjFree _ [] (by intro c hc; cases hc)
      have hsplit : splitWs (normCore l) =
          splitWs (fixPunct ((collapseWs l).filter isKeep)) :=
        splitWs_stripWsEnds _
      rw [hsplit]
      exact splitWs_inner_heads _ hzadj
    have hclean : cleanTextL l =
        joinSep ['\n'] ((wrapWords 80 (splitWs (normCore l))).map (joinSep [' '])) := by
      rw [cleanTextL_eq l, if_neg hq]
    have hflat : (wrapWords 80 (splitWs (normCore l))).flatten =
        splitWs (normCore l) := by
      have := wrapWordsGo_flatten 80 (splitWs (normCore l)) [] 0
      simpa [wrapWords] using this
    have hlinewords : ∀ line ∈ wrapWords 80 (splitWs (normCore l)),
        ∀ w ∈ line, w ≠ [] ∧ ∀ c ∈ w, pyWs c = false := by
      intro line hline w hwline
      refine hWwords w ?_
      rw [← hflat]
      exact List.mem_flatten_of_mem hline hwline
    -- every character of the cleaned text is kept by the filter
    have hkept : ∀ c ∈ cleanTextL l, isKeep c = true := by
      intro c hc
      rw [hclean] at hc
      rcases joinSep_mem _ _ _ hc with h | ⟨line', hl', hcl⟩
      · simp only [List.mem_singleton] at h
        subst h
        decide
      · rcases List.mem_map.1 hl' with ⟨line, hline, rfl⟩
        rcases joinSep_mem _ _ _ hcl with h | ⟨w, hwl, hcw⟩
        · simp only [List.mem_singleton] at h
          subst h
          decide
        · have hcq : c ∈ normCore l := by
            have hwW : w ∈ splitWs (normCore l) := by
              rw [← hflat]
              exact List.mem_flatten_of_mem hline hwl
            rcases splitWsGo_mem (normCore l) [] w hwW c hcw with h | h
            · cases h
            · exact h
          exact normCore_kept l c hcq
    -- collapsing the cleaned text gives the single-spaced word stream,
    -- possibly after one leading space
    have hcol : collapseWs (cleanTextL l) = joinSep [' '] (splitWs (normCore l)) ∨
        collapseWs (cleanTextL l) = ' ' :: joinSep [' '] (splitWs (normCore l)) := by
      rcases wrapWords_shape 80 (splitWs (normCore l)) hWne with hsh | ⟨restl, hsh, hrne, hrlines⟩
      · cases hl0 : wrapWords 80 (splitWs (normCore l)) with
        | nil =>
          exfalso
          exact wrapWordsGo_ne 80 (splitWs (normCore l)) [] 0 (Or.inr hWne) hl0
        | cons line0 rest =>
          left
          rw [hclean, hl0]
          rw [collapse_render rest line0 (hsh line0 (by rw [hl0]; simp))
            (fun x hx => hsh x (by rw [hl0]; simp [hx]))
            (fun x hx => hlinewords x (by rw [hl0]; exact hx))]
          rw [show (line0 :: rest).flatten =
            (wrapWords 80 (splitWs (normCore l))).flatten from by rw [hl0], hflat]
      · right
        rw [hclean, hsh]
        cases restl with
        | nil => exact absurd rfl hrne
        | cons line1 rest' =>
          rw [collapse_render_quirk (line1 :: rest') line1 rest' rfl
            (hrlines line1 (by simp))
            hrlines
            (fun x hx => hlinewords x (by rw [hsh]; exact List.mem_cons_of_mem _ hx))]
          rw [show (line1 :: rest').flatten =
            (wrapWords 80 (splitWs (normCore l))).flatten from by rw [hsh]; simp, hflat]
    -- the filter is the identity on the collapsed cleaned text
    have hfil : (collapseWs (cleanTextL l)).filter isKeep =
        collapseWs (cleanTextL l) := by
      rw [List.filter_eq_self]
      intro c hc
      rcases collapseGo_mem _ _ _ hc with h | h
      · subst h
        decide
      · exact hkept c h
    have hadjJ : adjFree (joinSep [' '] (splitWs (normCore l))) :=
      adjFree_joinSep_space _ hWwords hinner
    have hheadW : ∀ c, (joinSep [' '] (splitWs (normCore l))).head? = some c →
        pyWs c = false := by
      intro c hc
      cases hW : splitWs (normCore l) with
      | nil => exact absurd hW hWne
      | cons w1 W' =>
        rw [hW, joinSep_head_sep [' '] w1 W' (by
          have := hWwords w1 (by rw [hW]; simp)
          exact this.1)] at hc
        have hw1 := hWwords w1 (by rw [hW]; simp)
        cases w1 with
        | nil => exact absurd rfl hw1.1
        | cons d w'' =>
          simp only [List.head?_cons, Option.some_inj] at hc
          exact hc ▸ hw1.2 d (List.mem_cons_self d w'')
    have hdropJ : (joinSep [' '] (splitWs (normCore l))).dropWhile pyWs =
        joinSep [' '] (splitWs (normCore l)) :=
      dropWhile_head_nonws _ hheadW
    have hfixsplit : splitWs (fixPunct ((collapseWs (cleanTextL l)).filter isKeep)) =
        splitWs ((collapseWs (cleanTextL l)).filter isKeep) := by
      apply splitWs_fixPunct
      rw [hfil]
      rcases hcol with h | h
      · rw [h, hdropJ]
        exact hadjJ
      · rw [h, show (' ' :: joinSep [' '] (splitWs (normCore l))).dropWhile pyWs =
          (joinSep [' '] (splitWs (normCore l))).dropWhile pyWs from by
            rw [List.dropWhile_cons, if_pos (show pyWs ' ' = true from by decide)]
          , hdropJ]
        exact hadjJ
    have hq2 : splitWs (normCore (cleanTextL l)) = splitWs (normCore l) := by
      show splitWs (stripWsEnds (fixPunct ((collapseWs (cleanTextL l)).filter isKeep))) = _
      rw [splitWs_stripWsEnds, hfixsplit, hfil]
      rcases hcol with h | h
      · rw [h]
        exact splitWs_join_words _ hWwords
      · rw [h, show splitWs (' ' :: joinSep [' '] (splitWs (normCore l))) =
          splitWs (joinSep [' '] (splitWs (normCore l))) from
            splitWs_ws_prefix [' '] _ (by
              intro c hc
              simp only [List.mem_singleton] at hc
              subst hc
              decide)]
        exact splitWs_join_words _ hWwords
    have hq2ne : normCore (cleanTextL l) ≠ [] := by
      intro h
      rw [h] at hq2
      exact hWne hq2.symm
    rw [cleanTextL_eq (cleanTextL l), if_neg hq2ne, hq2, hclean]

/-! ### Output-line structure of `wrap_text` -/

theorem splitWs_nil_strip {p : List Char} (h : splitWs p = []) :
    stripWsEnds p = [] := by
  have hall : ∀ c ∈ p, pyWs c = true := by
    intro c hc
    by_contra hcc
    exact splitWs_ne_of_not_ws p c hc (by simpa using hcc) h
  have hdrop : p.dropWhile pyWs = [] := List.dropWhile_eq_nil_iff.2 hall
  unfold stripWsEnds
  rw [hdrop]
  rfl

theorem wrapParaLines_ne (width : Nat) (p : List Char) :
    wrapParaLines width p ≠ [] := by
  unfold wrapParaLines
  by_cases h1 : (stripWsEnds p).isEmpty
  · simp [h1]
  · rw [if_neg h1]
    by_cases h2 : pageMarkChars.isPrefixOf (stripWsEnds p)
    · simp [h2]
    · rw [if_neg h2]
      have hsp : splitWs p ≠ [] := by
        intro h
        rw [splitWs_nil_strip h] at h1
        exact h1 rfl
      intro h
      rw [List.map_eq_nil_iff] at h
      exact wrapWordsGo_ne width (splitWs p) [] 0 (Or.inr hsp) h

theorem wrapParaLines_chars (width : Nat) (p : List Char) :
    ∀ line ∈ wrapParaLines width p, ∀ c ∈ line, c = ' ' ∨ c ∈ p := by
  intro line hline c hc
  unfold wrapParaLines at hline
  by_cases h1 : (stripWsEnds p).isEmpty
  · rw [if_pos h1] at hline
    simp only [List.mem_singleton] at hline
    subst hline
    cases hc
  · rw [if_neg h1] at hline
    by_cases h2 : pageMarkChars.isPrefixOf (stripWsEnds p)
    · rw [if_pos h2] at hline
      simp only [List.mem_singleton] at hline
      subst hline
      exact Or.inr hc
    · rw [if_neg h2] at hline
      rcases List.mem_map.1 hline with ⟨lwords, hlw, rfl⟩
      rcases joinSep_mem _ _ _ hc with h | ⟨w, hw, hcw⟩
      · simp only [List.mem_singleton] at h
        exact Or.inl h
      · have hwW : w ∈ splitWs p := by
          have hfl := wrapWordsGo_flatten width (splitWs p) [] 0
          rw [List.nil_append] at hfl
          rw [← hfl]
          exact List.mem_flatten_of_mem hlw hw
        rcases splitWsGo_mem p [] w hwW c hcw with h | h
        · cases h
        · exact Or.inr h

theorem splitNlGo_append_no_nl :
    ∀ (x acc rest : List Char), (∀ c ∈ x, c ≠ '\n') →
      splitNlGo acc (x ++ rest) = splitNlGo (acc ++ x) rest := by
  intro x
  induction x with
  | nil => intro acc rest _; simp
  | cons c x' ih =>
    intro acc rest h
    have hc : ¬(c == '\n') := by
      simpa using h c (List.mem_cons_self c x')
    show splitNlGo acc (c :: (x' ++ rest)) = _
    simp only [splitNlGo, hc, if_false]
    rw [ih (acc ++ [c]) rest fun d hd => h d (List.mem_cons_of_mem _ hd)]
    simp

theorem splitOnNl_joinSep :
    ∀ ls : List (List Char), ls ≠ [] → (∀ p ∈ ls, ∀ c ∈ p, c ≠ '\n') →
      splitOnNl (joinSep ['\n'] ls) = ls := by
  intro ls
  induction ls with
  | nil => intro h _; exact absurd rfl h
  | cons x ls ih =>
    intro _ hnl
    cases ls with
    | nil => exact splitOnNl_single x (hnl x (List.mem_cons_self x _))
    | cons y ls' =>
      show splitOnNl (x ++ ['\n'] ++ joinSep ['\n'] (y :: ls')) = _
      rw [List.append_assoc]
      show splitNlGo [] (x ++ ('\n' :: joinSep ['\n'] (y :: ls'))) = _
      rw [splitNlGo_append_no_nl x [] _ (hnl x (List.mem_cons_self x _))]
      rw [List.nil_append]
      show splitNlGo x ('\n' :: joinSep ['\n'] (y :: ls')) = _
      rw [show splitNlGo x ('\n' :: joinSep ['\n'] (y :: ls')) =
        x :: splitNlGo [] (joinSep ['\n'] (y :: ls')) from by simp [splitNlGo]]
      rw [show splitNlGo [] (joinSep ['\n'] (y :: ls')) =
        splitOnNl (joinSep ['\n'] (y :: ls')) from rfl]
      rw [ih (by simp) fun p hp => hnl p (List.mem_cons_of_mem _ hp)]

theorem splitOnNl_wrapTextL (width : Nat) (l : List Char) :
    splitOnNl (wrapTextL width l) =
      ((splitOnNl l).map (wrapParaLines width)).flatten := by
  unfold wrapTextL
  apply splitOnNl_joinSep
  · cases hp : splitOnNl l with
    | nil => exact absurd hp (splitNlGo_ne l [])
    | cons p0 rest =>
      simp only [List.map_cons, List.flatten_cons]
      intro h
      rcases List.append_eq_nil.1 h with ⟨h1, _⟩
      exact wrapParaLines_ne width p0 h1
  · intro line hline c hc
    rcases List.mem_flatten.1 hline with ⟨lines, hlines, hlinemem⟩
    rcases List.mem_map.1 hlines with ⟨p, hp, rfl⟩
    rcases wrapParaLines_chars width p line hlinemem c hc with h | h
    · subst h
      decide
    · have hpnl := splitNlGo_no_nl l [] (by intro d hd; cases hd) p hp
      exact hpnl c h

theorem wrapTextL_chars (width : Nat) (l : List Char) :
    ∀ c ∈ wrapTextL width l, c = '\n' ∨ c = ' ' ∨ c ∈ l := by
  intro c hc
  unfold wrapTextL at hc
  rcases joinSep_mem _ _ _ hc with h | ⟨line, hline, hcl⟩
  · simp only [List.mem_singleton] at h
    exact Or.inl h
  · rcases List.mem_flatten.1 hline with ⟨lines, hlines, hlinemem⟩
    rcases List.mem_map.1 hlines with ⟨p, hp, rfl⟩
    rcases wrapParaLines_chars width p line hlinemem c hcl with h | h
    · exact Or.inr (Or.inl h)
    · refine Or.inr (Or.inr ?_)
      rcases splitNlGo_mem l [] p hp c h with h' | h'
      · cases h'
      · exact h'

/-! ### Width bound of the greedy loop -/

theorem sumw_cons (w : List Char) (ws : List (List Char)) :
    sumw (w :: ws) = (w.length + 1) + sumw ws := by
  simp [sumw]

theorem sumw_append_one (ws : List (List Char)) (w : List Char) :
    sumw (ws ++ [w]) = sumw ws + (w.length + 1) := by
  simp [sumw]

theorem joinSep_space_length :
    ∀ ws : List (List Char), ws ≠ [] →
      (joinSep [' '] ws).length = sumw ws - 1 := by
  intro ws
  induction ws with
  | nil => intro h; exact absurd rfl h
  | cons w ws ih =>
    intro _
    cases ws with
    | nil => simp [joinSep, sumw]
    | cons w' ws' =>
      show (w ++ [' '] ++ joinSep [' '] (w' :: ws')).length = _
      rw [List.length_append, List.length_append, ih (by simp),
        sumw_cons w (w' :: ws'), sumw_cons w' ws']
      simp only [List.length_singleton]
      omega

theorem wrapWordsGo_lines_bound (width : Nat) :
    ∀ (ws cur : List (List Char)) (clen : Nat),
      (∀ w ∈ ws, w.length ≤ width) → clen = sumw cur →
      (clen ≤ width ∨ ∃ w, cur = [w] ∧ w.length ≤ width) →
      ∀ line ∈ wrapWordsGo width ws cur clen,
        (joinSep [' '] line).length ≤ width := by
  intro ws
  induction ws with
  | nil =>
    intro cur clen _ hclen hinv line hline
    by_cases hcur : cur.isEmpty
    · simp [wrapWordsGo, hcur] at hline
    · rw [show wrapWordsGo width [] cur clen = [cur] from by
        simp [wrapWordsGo, hcur]] at hline
      simp only [List.mem_singleton] at hline
      subst hline
      have hne : line ≠ [] := by simpa [List.isEmpty_iff] using hcur
      rcases hinv with h | ⟨w, rfl, hw⟩
      · rw [joinSep_space_length line hne]
        omega
      · simp only [joinSep]
        omega
  | cons w ws ih =>
    intro cur clen hws hclen hinv line hline
    simp only [wrapWordsGo] at hline
    by_cases h : width < clen + (w.length + 1)
    · rw [if_pos h] at hline
      rcases List.mem_cons.1 hline with h' | h'
      · subst h'
        by_cases hcur : line = []
        · subst hcur
          simp [joinSep]
        · rcases hinv with hi | ⟨w', rfl, hw'⟩
          · rw [joinSep_space_length line hcur]
            omega
          · simp only [joinSep]
            omega
      · refine ih [w] (w.length + 1)
          (fun x hx => hws x (List.mem_cons_of_mem _ hx))
          (by simp [sumw])
          (Or.inr ⟨w, rfl, hws w (List.mem_cons_self w ws)⟩) line h'
    · rw [if_neg h] at hline
      refine ih (cur ++ [w]) (clen + (w.length + 1))
        (fun x hx => hws x (List.mem_cons_of_mem _ hx))
        (by rw [sumw_append_one, hclen])
        (Or.inl (by omega)) line hline

/-! ## Claim C5: idempotence of normalization -/

/-- C5: `clean_text` is idempotent — cleaning already-cleaned text
changes nothing. -/
theorem clean_text_idempotent (s : String) :
    clean_text (clean_text s) = clean_text s :=
  congrArg String.mk (cleanTextL_idem s.data)

/-! ## Claim C3: page-marker preservation -/

/-- Counterexample to C3: the full normalization (`clean_text`) does not
pass a `"[Page"` paragraph through unmodified — the character filter
deletes the brackets. -/
theorem clean_text_mutates_page_marker :
    clean_text "[Page 3]" = "Page 3" ∧ ("Page 3" : String) ≠ "[Page 3]" := by
  constructor
  · decide
  · decide

/-- C3 (amended): the wrapping stage (`wrap_text`) passes every
paragraph whose stripped content starts with `"[Page"` through
byte-for-byte unmodified regardless of width, and that paragraph
reappears as a whole output line; `clean_text` itself does not preserve
such paragraphs (see the counterexample) — in the pipeline, markers are
injected after cleaning and never re-normalized. -/
theorem wrap_text_preserves_page_markers (width : Nat) (t : String)
    (p : List Char) (hp : p ∈ splitOnNl t.data)
    (hm : pageMarkChars.isPrefixOf (stripWsEnds p) = true) :
    wrapParaLines width p = [p] ∧
    p ∈ splitOnNl (wrap_text t width).data := by
  have hline : wrapParaLines width p = [p] := by
    unfold wrapParaLines
    have hne : ¬(stripWsEnds p).isEmpty := by
      intro h
      rw [List.isEmpty_iff.1 h] at hm
      simp [pageMarkChars, List.isPrefixOf] at hm
    rw [if_neg hne, if_pos hm]
  refine ⟨hline, ?_⟩
  show p ∈ splitOnNl (wrapTextL width t.data)
  rw [splitOnNl_wrapTextL]
  refine List.mem_flatten.2 ⟨wrapParaLines width p, List.mem_map_of_mem _ hp, ?_⟩
  rw [hline]
  exact List.mem_singleton_self p

/-- Witness for C3 (amended) at width 5 on `"a\n[Page 3]\nb"`. -/
theorem wrap_text_preserves_page_markers_witness :
    wrapParaLines 5 "[Page 3]".data = ["[Page 3]".data] ∧
    "[Page 3]".data ∈ splitOnNl (wrap_text "a\n[Page 3]\nb" 5).data :=
  wrap_text_preserves_page_markers 5 "a\n[Page 3]\nb" "[Page 3]".data
    (by decide) (by decide)

/-! ## Claim C6: width bound of wrapping -/

/-- Counterexample to C6: a paragraph whose stripped content starts with
`"[Page"` is passed through whole, so an 88-character line of 4-character
words survives wrapping at width 80 — more than one word, none longer
than 80, yet the single output line exceeds 80. -/
theorem wrap_text_marker_line_exceeds_width :
    wrap_text "[Page 1] aaaa aaaa aaaa aaaa aaaa aaaa aaaa aaaa aaaa aaaa aaaa aaaa aaaa aaaa aaaa aaaa" 80 =
      "[Page 1] aaaa aaaa aaaa aaaa aaaa aaaa aaaa aaaa aaaa aaaa aaaa aaaa aaaa aaaa aaaa aaaa" ∧
    ("[Page 1] aaaa aaaa aaaa aaaa aaaa aaaa aaaa aaaa aaaa aaaa aaaa aaaa aaaa aaaa aaaa aaaa" : String).length = 88 ∧
    (∀ w ∈ splitWs ("[Page 1] aaaa aaaa aaaa aaaa aaaa aaaa aaaa aaaa aaaa aaaa aaaa aaaa aaaa aaaa aaaa aaaa" : String).data,
      w.length ≤ 80) ∧
    2 ≤ (splitWs ("[Page 1] aaaa aaaa aaaa aaaa aaaa aaaa aaaa aaaa aaaa aaaa aaaa aaaa aaaa aaaa aaaa aaaa" : String).data).length ∧
    '\n' ∉ ("[Page 1] aaaa aaaa aaaa aaaa aaaa aaaa aaaa aaaa aaaa aaaa aaaa aaaa aaaa aaaa aaaa aaaa" : String).data := by
  refine ⟨by decide, by decide, by decide, by decide, by decide⟩

/-- C6 (amended): for paragraphs that are not protected page-marker
lines, if every word has length at most 80 then wrapping at width 80
produces no output line longer than 80 characters. -/
theorem wrap_width_bound (t : String)
    (h : ∀ p ∈ splitOnNl t.data,
      pageMarkChars.isPrefixOf (stripWsEnds p) = false ∧
      ∀ w ∈ splitWs p, w.length ≤ 80) :
    ∀ line ∈ splitOnNl (wrap_text t 80).data, line.length ≤ 80 := by
  intro line hline
  rw [show (wrap_text t 80).data = wrapTextL 80 t.data from rfl,
    splitOnNl_wrapTextL] at hline
  rcases List.mem_flatten.1 hline with ⟨lines, hlines, hlinemem⟩
  rcases List.mem_map.1 hlines with ⟨p, hp, rfl⟩
  unfold wrapParaLines at hlinemem
  by_cases h1 : (stripWsEnds p).isEmpty
  · rw [if_pos h1] at hlinemem
    simp only [List.mem_singleton] at hlinemem
    subst hlinemem
    simp
  · rw [if_neg h1, (h p hp).1] at hlinemem
    rw [if_neg (by simp)] at hlinemem
    rcases List.mem_map.1 hlinemem with ⟨lwords, hlw, rfl⟩
    exact wrapWordsGo_lines_bound 80 (splitWs p) [] 0 (h p hp).2 (by simp [sumw])
      (Or.inl (by omega)) lwords hlw

/-- Witness for C6 (amended) on `"hello world"`. -/
theorem wrap_width_bound_witness :
    ("hello world").data ∈ splitOnNl (wrap_text "hello world" 80).data ∧
    ("hello world").data.length ≤ 80 :=
  ⟨by decide, wrap_width_bound "hello world" (by decide) ("hello world").data
    (by decide)⟩

/-! ## Claim C10: character set of cleaned text -/

/-- Counterexample to C10: the filter keeps `\w`, which includes the
underscore — not an alphanumeric, whitespace, or listed punctuation
character — so `clean_text "_"` returns `"_"`. -/
theorem clean_text_underscore_survives :
    clean_text "_" = "_" ∧
    ('_'.isAlphanum || pyWs '_' || punctKeep '_') = false := by
  constructor
  · decide
  · decide

/-- C10 (amended): every character of cleaned text is a word character
(alphanumeric or underscore), whitespace, or one of `. , ! ? ; : ( ) -`;
in particular `[` and `]` never survive cleaning, and a toc section's
converted text (built from cleaned pages only, with no injected markers)
never contains `[` — so any `"[Page"` marker in a section's output was
injected by the pipeline, not extracted from the page text. -/
theorem clean_text_char_set (s : String) :
    (∀ c ∈ (clean_text s).data, isKeep c = true) ∧
    '[' ∉ (clean_text s).data ∧ ']' ∉ (clean_text s).data ∧
    (∀ (path : String) (ps : List String)
      (cfgs : List (String × PageNumbering)) (out : String),
      lowerChars (splitextBase (basenameOf path.data)) = "toc".data →
      (pdf_to_txt path (Except.ok ps) cfgs).1 = some out →
      '[' ∉ out.data) := by
  have hmain : ∀ c ∈ (clean_text s).data, isKeep c = true := by
    intro c hc
    rcases wrapTextL_chars 80 (normCore s.data) c hc with h | h | h
    · subst h
      decide
    · subst h
      decide
    · exact normCore_kept s.data c h
  refine ⟨hmain, ?_, ?_, ?_⟩
  · intro h
    have := hmain '[' h
    cases this
  · intro h
    have := hmain ']' h
    cases this
  · intro path ps cfgs out hbase hsome
    simp only [pdf_to_txt, hbase] at hsome
    rw [Option.some_inj] at hsome
    intro hmem
    rw [← hsome] at hmem
    rcases joinSep_mem _ _ _ hmem with h | ⟨piece, hpiece, hcp⟩
    · simp only [List.mem_singleton] at h
      cases h
    · rcases List.mem_map.1 hpiece with ⟨ip, _, rfl⟩
      rw [if_pos (by simp)] at hcp
      have := normCore_kept ip.2.data '['
        (by
          rcases wrapTextL_chars 80 (normCore ip.2.data) '[' hcp with h | h | h
          · cases h
          · cases h
          · exact h)
      cases this

/-- Witness for C10 (amended): brackets are gone after cleaning, and the
toc branch of the pipeline yields bracket-free output. -/
theorem clean_text_char_set_witness :
    '[' ∉ (clean_text "see [1] and [2]").data ∧
    clean_text "see [1] and [2]" = "see 1 and 2" := by
  refine ⟨(clean_text_char_set "see [1] and [2]").2.1, by decide⟩

end PdfToLlm
